import Mathlib

/-!
Verification of the MuonCVXDDigitiser pixel-digitization core.

Definitions are shallow embeddings of the C++ sources (PixelDigiMatrix.h,
HKBaseSensor.h, MuonCVXDDigitiser.cc).  Components whose implementation
files are not part of the source tree (the bodies of PixelDigiMatrix.cc
and HKBaseSensor.cc) are modelled from the specification; their doc
comments start with "Modelled from the spec".  Real-valued quantities
(C++ float/double) are modelled with exact rational arithmetic.
-/

/- ************************************************************************
   PixelDigiMatrix.h: inline bounds predicate
   ************************************************************************ -/

/-- Shallow embedding of the inline member `PixelDigiMatrix::check`
(PixelDigiMatrix.h):
`return (0 <= x and x < l_rows) and (0 <= y || y < l_columns);`
translated verbatim, including the disjunction in the column test. -/
def check (l_rows l_columns x y : Int) : Bool :=
  (decide (0 ≤ x) && decide (x < l_rows)) && (decide (0 ≤ y) || decide (y < l_columns))

/-- The bounds predicate as the specification describes it: true exactly
when `0 ≤ x < l_rows` and `0 ≤ y < l_columns`. -/
def checkSpec (l_rows l_columns x y : Int) : Bool :=
  (decide (0 ≤ x) && decide (x < l_rows)) && (decide (0 ≤ y) && decide (y < l_columns))

/- ************************************************************************
   PixelDigiMatrix.h: GridPosition
   ************************************************************************ -/

/-- Shallow embedding of `GridPosition::operator()(int row, int col)`:
`row * b_size + col`, where `b_size` is the column count given at
construction.  Arguments are natural numbers, matching the claimed
domain of nonnegative indices. -/
def GridPosition.toLin (b_size row col : Nat) : Nat :=
  row * b_size + col

/-- Shallow embedding of `GridPosition::operator()(LinearPosition pos)`:
`{ pos / b_size, pos % b_size }` (C++ integer division and remainder
agree with Nat division and remainder on nonnegative operands). -/
def GridPosition.toGrid (b_size pos : Nat) : Nat × Nat :=
  (pos / b_size, pos % b_size)

/- ************************************************************************
   PixelDigiMatrix.h: coordinate transforms
   ************************************************************************ -/

/-- Truncation toward zero: the semantics of the C++ cast `int(d)`
applied to a real value. -/
def cppTrunc (q : ℚ) : Int :=
  if 0 ≤ q then ⌊q⌋ else ⌈q⌉

/-- Shallow embedding of the inline member `PixelDigiMatrix::YToPixelCol`:
`int((y + _ladderLength / 2) / _pixelSizeY)`. -/
def YToPixelCol (ladderLength pixelSizeY y : ℚ) : Int :=
  cppTrunc ((y + ladderLength / 2) / pixelSizeY)

/-- Shallow embedding of the inline member `PixelDigiMatrix::PixelColToY`:
`((0.5 + double(iy)) * _pixelSizeY) - _ladderLength / 2`. -/
def PixelColToY (ladderLength pixelSizeY : ℚ) (iy : Int) : ℚ :=
  (1 / 2 + (iy : ℚ)) * pixelSizeY - ladderLength / 2

/- ************************************************************************
   MuonCVXDDigitiser.cc: ReconstructTrackerHit
   ************************************************************************ -/

/-- One entry of the `simTrkVec` input of `ReconstructTrackerHit`:
deposited charge and the two in-ladder position coordinates that the
accumulation loop reads. -/
structure SimHitPoint where
  eDep : ℚ
  x : ℚ
  y : ℚ
deriving DecidableEq

/-- Reconstructed hit produced by `ReconstructTrackerHit`: energy and the
two in-plane position coordinates that the function assigns. -/
structure RecoHit where
  eDep : ℚ
  x : ℚ
  y : ℚ
deriving DecidableEq

/-- The hits the accumulation loop of `ReconstructTrackerHit` does not
skip: the loop body runs `continue` when `hit->getEDep() <= _threshold`,
so exactly the hits with `threshold < eDep` contribute. -/
def selectedHits (thr : ℚ) (hits : List SimHitPoint) : List SimHitPoint :=
  hits.filter (fun h => decide (thr < h.eDep))

/-- Shallow embedding of `MuonCVXDDigitiser::ReconstructTrackerHit`
(MuonCVXDDigitiser.cc).  The accumulation loop is rendered as
filter-and-sum: `charge`, `pos[0]`, `pos[1]`, `size` are the sums of
`eDep`, `x`, `y` and the count over the non-skipped hits.  When
`charge > 0` the function returns a hit with
`EDep = (charge / _electronsPerKeV) * keV` and position
`pos[i]/size - halfThickness * tanLorentzAngle`; otherwise `nullptr`,
here `none`. -/
def ReconstructTrackerHit (thr electronsPerKeV keV halfThickness tanLAx tanLAy : ℚ)
    (hits : List SimHitPoint) : Option RecoHit :=
  if 0 < ((selectedHits thr hits).map SimHitPoint.eDep).sum then
    some { eDep := ((selectedHits thr hits).map SimHitPoint.eDep).sum / electronsPerKeV * keV,
           x := ((selectedHits thr hits).map SimHitPoint.x).sum /
                  ((selectedHits thr hits).length : ℚ) - halfThickness * tanLAx,
           y := ((selectedHits thr hits).map SimHitPoint.y).sum /
                  ((selectedHits thr hits).length : ℚ) - halfThickness * tanLAy }
  else none

/- ************************************************************************
   Theorems: C1, C8, C7, C10
   ************************************************************************ -/

/-- C1: the column conjunct of `PixelDigiMatrix::check` is written with
`||` instead of `and` and is therefore a tautology: on a 2x2 matrix the
out-of-range column index 2 passes the bounds check, while the
specification's predicate rejects it; in general `check` tests only the
row bounds. -/
theorem check_accepts_out_of_range_column :
    check 2 2 0 2 = true ∧ checkSpec 2 2 0 2 = false ∧
      check 2 2 0 (-3) = true ∧ checkSpec 2 2 0 (-3) = false := by
  decide

/-- Helper: on a 2x2 matrix, `check` ignores the column argument
entirely. -/
theorem check_ignores_column (x y : Int) :
    check 2 2 x y = (decide (0 ≤ x) && decide (x < 2)) := by
  unfold check
  have h : (decide (0 ≤ y) || decide (y < 2)) = true := by
    rcases Int.lt_or_le y 0 with h | h
    · have hy : y < 2 := by omega
      simp [hy]
    · simp [h]
  rw [h, Bool.and_true]

/-- C8: `GridPosition` is a bijection between grid coordinates and
linear indices: for every row and every column below the column count,
converting to a linear position and back returns the original pair, and
for every linear position the reverse composition returns the original
position. -/
theorem gridPosition_bijection (b_size row col pos : Nat)
    (hb : 0 < b_size) (hcol : col < b_size) :
    GridPosition.toGrid b_size (GridPosition.toLin b_size row col) = (row, col) ∧
      GridPosition.toLin b_size (GridPosition.toGrid b_size pos).1
        (GridPosition.toGrid b_size pos).2 = pos := by
  constructor
  · unfold GridPosition.toGrid GridPosition.toLin
    have h1 : (row * b_size + col) / b_size = row := by
      rw [Nat.mul_comm row b_size, Nat.mul_add_div hb, Nat.div_eq_of_lt hcol,
        Nat.add_zero]
    have h2 : (row * b_size + col) % b_size = col := by
      rw [Nat.mul_comm row b_size, Nat.mul_add_mod, Nat.mod_eq_of_lt hcol]
    rw [h1, h2]
  · show pos / b_size * b_size + pos % b_size = pos
    rw [Nat.mul_comm]
    exact Nat.div_add_mod pos b_size

/-- C8 witness: the bijection theorem instantiated on a 3-column grid at
row 2, column 1 and linear position 7. -/
theorem gridPosition_bijection_witness :
    0 < 3 ∧ 1 < 3 ∧
      (GridPosition.toGrid 3 (GridPosition.toLin 3 2 1) = (2, 1) ∧
        GridPosition.toLin 3 (GridPosition.toGrid 3 7).1 (GridPosition.toGrid 3 7).2 = 7) :=
  ⟨by decide, by decide, gridPosition_bijection 3 2 1 7 (by decide) (by decide)⟩

/-- C7: for a positive pixel pitch and any physical coordinate y with
-ladderLength/2 ≤ y < ladderLength/2, converting y to a pixel column,
mapping the column back to a coordinate and converting again returns the
same column: the round trip stays in the same discrete bin. -/
theorem yToPixelCol_roundTrip (L pY y : ℚ) (hpY : 0 < pY)
    (hy1 : -(L / 2) ≤ y) (hy2 : y < L / 2) :
    YToPixelCol L pY (PixelColToY L pY (YToPixelCol L pY y)) = YToPixelCol L pY y := by
  have hnum : 0 ≤ y + L / 2 := by linarith
  have ht : 0 ≤ (y + L / 2) / pY := div_nonneg hnum hpY.le
  have hcol : YToPixelCol L pY y = ⌊(y + L / 2) / pY⌋ := by
    unfold YToPixelCol cppTrunc
    rw [if_pos ht]
  set c : Int := ⌊(y + L / 2) / pY⌋ with hc
  have hc0 : 0 ≤ c := Int.le_floor.mpr (by exact_mod_cast ht)
  have harg : (PixelColToY L pY c + L / 2) / pY = 1 / 2 + (c : ℚ) := by
    unfold PixelColToY
    have h1 : (1 / 2 + (c : ℚ)) * pY - L / 2 + L / 2 = (1 / 2 + (c : ℚ)) * pY := by
      ring
    rw [h1, mul_div_cancel_right₀ _ (ne_of_gt hpY)]
  rw [hcol]
  unfold YToPixelCol
  rw [harg]
  unfold cppTrunc
  have hcq : (0 : ℚ) ≤ (c : ℚ) := by exact_mod_cast hc0
  have hpos : (0 : ℚ) ≤ 1 / 2 + (c : ℚ) := by linarith
  rw [if_pos hpos, add_comm, Int.floor_int_add]
  have hhalf : ⌊(1 / 2 : ℚ)⌋ = 0 := by
    rw [Int.floor_eq_zero_iff]
    constructor <;> norm_num
  rw [hhalf, add_zero]

/-- C7 witness: the round-trip theorem instantiated with ladder length 4,
pixel pitch 1 and coordinate y = 1/3. -/
theorem yToPixelCol_roundTrip_witness :
    (0 : ℚ) < 1 ∧ -((4 : ℚ) / 2) ≤ 1 / 3 ∧ (1 : ℚ) / 3 < 4 / 2 ∧
      YToPixelCol 4 1 (PixelColToY 4 1 (YToPixelCol 4 1 (1 / 3))) = YToPixelCol 4 1 (1 / 3) :=
  ⟨by norm_num, by norm_num, by norm_num,
    yToPixelCol_roundTrip 4 1 (1 / 3) (by norm_num) (by norm_num) (by norm_num)⟩

/-- C10 counterexample: with threshold -2, a single input pixel of charge
-1 is strictly above the threshold, yet the function returns a null hit,
because the code guards on the accumulated charge being positive rather
than on some pixel being above threshold. -/
theorem reconstructTrackerHit_null_despite_over_threshold :
    ReconstructTrackerHit (-2) 1 1 0 0 0 [{ eDep := -1, x := 0, y := 0 }] = none ∧
      (-2 : ℚ) < -1 := by
  constructor
  · unfold ReconstructTrackerHit selectedHits
    norm_num
  · norm_num

/-- Helper: every selected hit has charge strictly above the threshold. -/
theorem selectedHits_over_thr (thr : ℚ) (hits : List SimHitPoint) :
    ∀ h ∈ selectedHits thr hits, thr < h.eDep := by
  intro h hh
  have := List.of_mem_filter hh
  simpa using this

/-- Helper: the selection is empty exactly when no input hit is strictly
above the threshold. -/
theorem selectedHits_eq_nil_iff (thr : ℚ) (hits : List SimHitPoint) :
    selectedHits thr hits = [] ↔ ∀ h ∈ hits, h.eDep ≤ thr := by
  unfold selectedHits
  rw [List.filter_eq_nil]
  constructor
  · intro hall h hh
    have := hall h hh
    simpa using this
  · intro hall h hh
    simp only [decide_eq_true_eq]
    exact not_lt.mpr (hall h hh)

/-- Helper: for a nonnegative threshold, a nonempty selection has a
positive charge sum. -/
theorem selectedHits_sum_pos (thr : ℚ) (hits : List SimHitPoint) (hthr : 0 ≤ thr)
    (hne : selectedHits thr hits ≠ []) :
    0 < ((selectedHits thr hits).map SimHitPoint.eDep).sum := by
  apply List.sum_pos
  · intro x hx
    rcases List.mem_map.mp hx with ⟨h, hh, rfl⟩
    exact lt_of_le_of_lt hthr (selectedHits_over_thr thr hits h hh)
  · simpa using hne

/-- C10 amended: for a nonnegative threshold, the function returns a null
hit exactly when no input pixel has charge strictly above the threshold
(a pixel at exactly the threshold is excluded); any returned hit has
charge equal to the sum of the above-threshold pixel charges converted
to keV, and x,y equal to the unweighted arithmetic mean of the
above-threshold pixel positions minus the Lorentz-angle shift. -/
theorem reconstructTrackerHit_spec (thr epk keV hth lax lay : ℚ)
    (hits : List SimHitPoint) (hthr : 0 ≤ thr) :
    (ReconstructTrackerHit thr epk keV hth lax lay hits = none ↔
        ∀ h ∈ hits, h.eDep ≤ thr) ∧
      ∀ r, ReconstructTrackerHit thr epk keV hth lax lay hits = some r →
        r.eDep = ((selectedHits thr hits).map SimHitPoint.eDep).sum / epk * keV ∧
        r.x = ((selectedHits thr hits).map SimHitPoint.x).sum /
                ((selectedHits thr hits).length : ℚ) - hth * lax ∧
        r.y = ((selectedHits thr hits).map SimHitPoint.y).sum /
                ((selectedHits thr hits).length : ℚ) - hth * lay := by
  constructor
  · rw [← selectedHits_eq_nil_iff thr hits]
    unfold ReconstructTrackerHit
    by_cases hc : 0 < ((selectedHits thr hits).map SimHitPoint.eDep).sum
    · rw [if_pos hc]
      constructor
      · intro hsome
        exact absurd hsome (by simp)
      · intro hnil
        rw [hnil] at hc
        simp at hc
    · rw [if_neg hc]
      constructor
      · intro _
        by_contra hne
        exact hc (selectedHits_sum_pos thr hits hthr hne)
      · intro _
        rfl
  · intro r hr
    unfold ReconstructTrackerHit at hr
    by_cases hc : 0 < ((selectedHits thr hits).map SimHitPoint.eDep).sum
    · rw [if_pos hc] at hr
      cases hr
      exact ⟨rfl, rfl, rfl⟩
    · rw [if_neg hc] at hr
      exact absurd hr (by simp)

/-- C10 witness: the amended theorem instantiated at threshold 0 with a
single pixel of charge 5 at position (2, 4). -/
theorem reconstructTrackerHit_spec_witness :
    (0 : ℚ) ≤ 0 ∧
      ((ReconstructTrackerHit 0 1 1 0 0 0 [⟨5, 2, 4⟩] = none ↔
          ∀ h ∈ [(⟨5, 2, 4⟩ : SimHitPoint)], h.eDep ≤ 0) ∧
        ∀ r, ReconstructTrackerHit 0 1 1 0 0 0 [⟨5, 2, 4⟩] = some r →
          r.eDep = ((selectedHits 0 [⟨5, 2, 4⟩]).map SimHitPoint.eDep).sum / 1 * 1 ∧
          r.x = ((selectedHits 0 [⟨5, 2, 4⟩]).map SimHitPoint.x).sum /
                  ((selectedHits 0 [⟨5, 2, 4⟩]).length : ℚ) - 0 * 0 ∧
          r.y = ((selectedHits 0 [⟨5, 2, 4⟩]).map SimHitPoint.y).sum /
                  ((selectedHits 0 [⟨5, 2, 4⟩]).length : ℚ) - 0 * 0) :=
  ⟨le_refl 0, reconstructTrackerHit_spec 0 1 1 0 0 0 [⟨5, 2, 4⟩] (le_refl 0)⟩

/- ************************************************************************
   PixelDigiMatrix: state machine modelled from the spec
   (the implementation file PixelDigiMatrix.cc is not part of the source
   tree; only its header is)
   ************************************************************************ -/

/-- Modelled from the spec: pixel status in the specification's
vocabulary (idle / charging / ready).  The header declares an enum whose
semantics live in the missing PixelDigiMatrix.cc. -/
inductive PixStatus where
  | idle
  | charging
  | ready
deriving DecidableEq

/-- Modelled from the spec: the per-pixel raw state of PixelDigiMatrix
(header struct `PixelRawData`): a charge, a decay counter, and the
status recomputed at each clock tick. -/
structure PixelState where
  charge : ℚ
  counter : Int
  status : PixStatus
deriving DecidableEq

/-- Modelled from the spec: the status recomputation performed at each
tick: charge at or above threshold gives ready, positive charge below
threshold gives charging, zero charge gives idle. -/
def calc_status (thr charge : ℚ) : PixStatus :=
  if thr ≤ charge then .ready else if 0 < charge then .charging else .idle

/-- Modelled from the spec: a pixel takes part in the ClockSync update
when it holds nonzero charge or a pending decay counter. -/
def decayPending (p : PixelState) : Bool :=
  decide (p.charge ≠ 0) || decide (0 < p.counter)

/-- Modelled from the spec: the per-pixel action of ClockSync: decrement
the counter, reduce the charge by slope times clock step floored at
zero, and recompute the status from the new charge. -/
def clockSyncPixel (thr slope step : ℚ) (p : PixelState) : PixelState :=
  if decayPending p then
    { charge := max 0 (p.charge - slope * step),
      counter := p.counter - 1,
      status := calc_status thr (max 0 (p.charge - slope * step)) }
  else p

/-- Modelled from the spec: the matrix state the claims touch: the pixel
array (indexed by linear position) and the internal clock. -/
structure MatrixState where
  pixels : List PixelState
  clock_time : ℚ
deriving DecidableEq

/-- Modelled from the spec: ClockSync applies the per-pixel decay update
to every pixel and advances the internal clock by exactly one step. -/
def ClockSync (thr slope step : ℚ) (m : MatrixState) : MatrixState :=
  { pixels := m.pixels.map (clockSyncPixel thr slope step),
    clock_time := m.clock_time + step }

/-- Modelled from the spec: the event-start pixel state: zero charge,
zero counter, idle. -/
def zeroPixel : PixelState :=
  { charge := 0, counter := 0, status := .idle }

/-- Modelled from the spec: Reset() returns the matrix to the
event-start state: every pixel cleared, clock back at the start time. -/
def Reset (nPixels : Nat) (starttime : ℚ) : MatrixState :=
  { pixels := List.replicate nPixels zeroPixel,
    clock_time := starttime }

/-- Modelled from the spec: IsActive is true iff some pixel holds
nonzero charge. -/
def IsActive (m : MatrixState) : Bool :=
  m.pixels.any (fun p => decide (p.charge ≠ 0))

/-- C2: after one ClockSync, every pixel that held nonzero charge or a
pending decay counter has its counter decremented, its charge reduced by
slope times step but never below zero, and its status recomputed (ready
at or above threshold, charging strictly between zero and threshold,
idle at zero); the internal clock advances by exactly one step. -/
theorem clockSync_spec (thr slope step : ℚ) (m : MatrixState) (i : Nat) (p : PixelState)
    (hthr : 0 < thr) (hp : m.pixels[i]? = some p)
    (hact : p.charge ≠ 0 ∨ 0 < p.counter) :
    ∃ q, (ClockSync thr slope step m).pixels[i]? = some q ∧
      q.counter = p.counter - 1 ∧
      q.charge = max 0 (p.charge - slope * step) ∧
      (thr ≤ q.charge → q.status = .ready) ∧
      (0 < q.charge → q.charge < thr → q.status = .charging) ∧
      (q.charge = 0 → q.status = .idle) ∧
      (ClockSync thr slope step m).clock_time = m.clock_time + step := by
  have hpend : decayPending p = true := by
    unfold decayPending
    rcases hact with h | h
    · simp [h]
    · simp [h]
  have hmap : (ClockSync thr slope step m).pixels[i]? =
      some (clockSyncPixel thr slope step p) := by
    unfold ClockSync
    simp [List.getElem?_map, hp]
  refine ⟨clockSyncPixel thr slope step p, hmap, ?_, ?_, ?_, ?_, ?_, ?_⟩
  · unfold clockSyncPixel
    rw [if_pos hpend]
  · unfold clockSyncPixel
    rw [if_pos hpend]
  · intro hq
    unfold clockSyncPixel at hq ⊢
    rw [if_pos hpend] at hq ⊢
    simp only at hq ⊢
    unfold calc_status
    rw [if_pos hq]
  · intro hq1 hq2
    unfold clockSyncPixel at hq1 hq2 ⊢
    rw [if_pos hpend] at hq1 hq2 ⊢
    simp only at hq1 hq2 ⊢
    unfold calc_status
    rw [if_neg (not_le.mpr hq2), if_pos hq1]
  · intro hq
    unfold clockSyncPixel at hq ⊢
    rw [if_pos hpend] at hq ⊢
    simp only at hq ⊢
    unfold calc_status
    rw [hq, if_neg (not_le.mpr hthr), if_neg (lt_irrefl 0)]
  · unfold ClockSync
    rfl

/-- Concrete one-pixel matrix used by the C2 witness. -/
def witnessMatrixC2 : MatrixState :=
  { pixels := [{ charge := 5, counter := 2, status := .ready }],
    clock_time := 0 }

/-- C2 witness: the ClockSync theorem instantiated on a one-pixel matrix
holding charge 5 with threshold 3, slope 1 and unit step. -/
theorem clockSync_spec_witness :
    (0 : ℚ) < 3 ∧
      witnessMatrixC2.pixels[0]? = some { charge := 5, counter := 2, status := .ready } ∧
      ((5 : ℚ) ≠ 0 ∨ (0 : Int) < 2) ∧
      ∃ q, (ClockSync 3 1 1 witnessMatrixC2).pixels[0]? = some q ∧
        q.counter = 2 - 1 ∧
        q.charge = max 0 (5 - 1 * 1) ∧
        ((3 : ℚ) ≤ q.charge → q.status = .ready) ∧
        (0 < q.charge → q.charge < 3 → q.status = .charging) ∧
        (q.charge = 0 → q.status = .idle) ∧
        (ClockSync 3 1 1 witnessMatrixC2).clock_time = 0 + 1 :=
  ⟨by norm_num, by rfl, Or.inl (by norm_num),
    clockSync_spec 3 1 1 witnessMatrixC2 0 { charge := 5, counter := 2, status := .ready }
      (by norm_num) (by rfl) (Or.inl (by norm_num))⟩

/- ************************************************************************
   PixelDigiMatrix constructor geometry (C6)
   ************************************************************************ -/

/-- Matrix construction status, from the header enum `MatrixStatus`:
ok, pixel_number_error, segment_number_error. -/
inductive MatrixStatus where
  | ok
  | pixel_number_error
  | segment_number_error
deriving DecidableEq

/-- Modelled from the spec: the geometry fields the PixelDigiMatrix
constructor computes (its body lives in the missing PixelDigiMatrix.cc):
ladder pixel counts l_rows, l_columns, per-tile counts s_rows, s_colums
(source spelling), segment counts, and the construction status. -/
structure MatrixGeom where
  l_rows : Nat
  l_columns : Nat
  s_rows : Nat
  s_colums : Nat
  x_segnum : Nat
  y_segnum : Nat
  status : MatrixStatus
deriving DecidableEq

/-- Modelled from the spec: the PixelDigiMatrix constructor succeeds
exactly when the segment counts evenly tile the ladder pixel grid; the
tile sizes are the quotients; a mismatch records the fatal
segment_number_error and the instance is unusable (tile sizes zeroed). -/
def mkPixelDigiMatrix (l_rows l_columns x_segnum y_segnum : Nat) : MatrixGeom :=
  if l_rows % x_segnum = 0 ∧ l_columns % y_segnum = 0 then
    { l_rows := l_rows, l_columns := l_columns,
      s_rows := l_rows / x_segnum, s_colums := l_columns / y_segnum,
      x_segnum := x_segnum, y_segnum := y_segnum, status := .ok }
  else
    { l_rows := l_rows, l_columns := l_columns, s_rows := 0, s_colums := 0,
      x_segnum := x_segnum, y_segnum := y_segnum, status := .segment_number_error }

/-- C6: construction succeeds (status ok) if and only if the segment
counts evenly tile the ladder pixel grid; every successfully constructed
matrix satisfies l_rows = x_segnum * s_rows and
l_columns = y_segnum * s_colums; a mismatched product yields the fatal
segment_number_error status. -/
theorem mkPixelDigiMatrix_spec (l_rows l_columns x_segnum y_segnum : Nat) :
    ((mkPixelDigiMatrix l_rows l_columns x_segnum y_segnum).status = .ok ↔
        x_segnum ∣ l_rows ∧ y_segnum ∣ l_columns) ∧
      ((mkPixelDigiMatrix l_rows l_columns x_segnum y_segnum).status = .ok →
        l_rows = x_segnum * (mkPixelDigiMatrix l_rows l_columns x_segnum y_segnum).s_rows ∧
          l_columns = y_segnum * (mkPixelDigiMatrix l_rows l_columns x_segnum y_segnum).s_colums) ∧
      (¬(x_segnum ∣ l_rows ∧ y_segnum ∣ l_columns) →
        (mkPixelDigiMatrix l_rows l_columns x_segnum y_segnum).status = .segment_number_error) := by
  have hdvd : (l_rows % x_segnum = 0 ∧ l_columns % y_segnum = 0) ↔
      (x_segnum ∣ l_rows ∧ y_segnum ∣ l_columns) := by
    rw [Nat.dvd_iff_mod_eq_zero, Nat.dvd_iff_mod_eq_zero]
  by_cases hc : l_rows % x_segnum = 0 ∧ l_columns % y_segnum = 0
  · have hok : mkPixelDigiMatrix l_rows l_columns x_segnum y_segnum =
        { l_rows := l_rows, l_columns := l_columns,
          s_rows := l_rows / x_segnum, s_colums := l_columns / y_segnum,
          x_segnum := x_segnum, y_segnum := y_segnum, status := .ok } := by
      unfold mkPixelDigiMatrix
      rw [if_pos hc]
    refine ⟨?_, ?_, ?_⟩
    · rw [hok]
      simp only [true_iff]
      exact hdvd.mp hc
    · intro _
      rw [hok]
      exact ⟨(Nat.mul_div_cancel' (hdvd.mp hc).1).symm,
        (Nat.mul_div_cancel' (hdvd.mp hc).2).symm⟩
    · intro hne
      exact absurd (hdvd.mp hc) hne
  · have herr : mkPixelDigiMatrix l_rows l_columns x_segnum y_segnum =
        { l_rows := l_rows, l_columns := l_columns, s_rows := 0, s_colums := 0,
          x_segnum := x_segnum, y_segnum := y_segnum,
          status := .segment_number_error } := by
      unfold mkPixelDigiMatrix
      rw [if_neg hc]
    refine ⟨?_, ?_, ?_⟩
    · rw [herr]
      constructor
      · intro hst
        exact absurd hst (by simp)
      · intro hd
        exact absurd (hdvd.mpr hd) hc
    · intro hst
      rw [herr] at hst
      exact absurd hst (by simp)
    · intro _
      rw [herr]

/- ************************************************************************
   GridPartitionedSet: Hoshen-Kopelman labeling pass modelled from the
   spec (the implementation file HKBaseSensor.cc is not part of the
   source tree; only its header is)
   ************************************************************************ -/

/-- A cell of the pixel grid: (row, column). -/
abbrev Cell : Type := Nat × Nat

/-- Modelled from the spec: the state of one labeling pass of
GridPartitionedSet: the label assigned so far to each processed active
cell, and the next fresh label.  The union-find structure is represented
extensionally by the labels it induces; the canonical label of a merged
pair is the smaller numeric id, as the spec requires. -/
structure HKState where
  label : Cell → Option Nat
  next : Nat

/-- Modelled from the spec: the state at the start of a labeling pass:
no cell labeled, first fresh label 0. -/
def initHK : HKState :=
  { label := fun _ => none, next := 0 }

/-- Modelled from the spec: label of the active left neighbor of c, none
when c is in column 0 or the left neighbor is inactive. -/
def hkLeft (active : Cell → Bool) (s : HKState) (c : Cell) : Option Nat :=
  if 0 < c.2 ∧ active (c.1, c.2 - 1) = true then s.label (c.1, c.2 - 1) else none

/-- Modelled from the spec: label of the active up neighbor of c, none
when c is in row 0 or the up neighbor is inactive. -/
def hkUp (active : Cell → Bool) (s : HKState) (c : Cell) : Option Nat :=
  if 0 < c.1 ∧ active (c.1 - 1, c.2) = true then s.label (c.1 - 1, c.2) else none

/-- Modelled from the spec: the label assignment for one active cell c,
given the labels of its active left/up neighbors: no active neighbor
takes a fresh label; one active neighbor is inherited; two differing
labels are unioned, the canonical label being the smaller id. -/
def assignLabel (s : HKState) (c : Cell) : Option Nat × Option Nat → HKState
  | (none, none) =>
    { label := fun p => if p = c then some s.next else s.label p, next := s.next + 1 }
  | (some a, none) =>
    { label := fun p => if p = c then some a else s.label p, next := s.next }
  | (none, some b) =>
    { label := fun p => if p = c then some b else s.label p, next := s.next }
  | (some a, some b) =>
    { label := fun p =>
        if p = c then some (min a b)
        else if s.label p = some (max a b) then some (min a b) else s.label p,
      next := s.next }

/-- Modelled from the spec: one scan step of the labeling pass: an
inactive cell is skipped, an active cell is labeled from its active
left/up neighbors. -/
def hkStep (active : Cell → Bool) (s : HKState) (c : Cell) : HKState :=
  if active c = true then assignLabel s c (hkLeft active s c, hkUp active s c) else s

/-- Modelled from the spec: the row-major scan: after k steps the cells
with row-major index below k have been processed; the cell of index k is
(k / cols, k % cols). -/
def hkScan (active : Cell → Bool) (cols : Nat) : Nat → HKState
  | 0 => initHK
  | k + 1 => hkStep active (hkScan active cols k) (k / cols, k % cols)

/-- Modelled from the spec: one full labeling pass of GridPartitionedSet
over a rows x cols grid. -/
def hkPass (active : Cell → Bool) (rows cols : Nat) : HKState :=
  hkScan active cols (rows * cols)

/-- 4-connectivity: two cells are adjacent when they share a row and
their columns differ by one, or share a column and their rows differ by
one. -/
def adj4 (p q : Cell) : Prop :=
  (p.1 = q.1 ∧ (p.2 + 1 = q.2 ∨ q.2 + 1 = p.2)) ∨
    (p.2 = q.2 ∧ (p.1 + 1 = q.1 ∨ q.1 + 1 = p.1))

/-- Membership of a cell in the rows x cols grid. -/
def inGrid (rows cols : Nat) (p : Cell) : Prop :=
  p.1 < rows ∧ p.2 < cols

/-- One edge of the connectivity graph the pass must reproduce: both
cells active, both in the grid, 4-adjacent. -/
def activeAdj (active : Cell → Bool) (rows cols : Nat) (p q : Cell) : Prop :=
  active p = true ∧ active q = true ∧ inGrid rows cols p ∧ inGrid rows cols q ∧ adj4 p q

/-- Connectivity: the equivalence closure of the active-adjacency
edges. -/
def hkConnected (active : Cell → Bool) (rows cols : Nat) (p q : Cell) : Prop :=
  Relation.EqvGen (activeAdj active rows cols) p q

/-- The set of cells processed after k scan steps that carry a label:
active cells in a column below cols whose row-major index is below k. -/
def Proc (active : Cell → Bool) (cols k : Nat) (p : Cell) : Prop :=
  active p = true ∧ p.2 < cols ∧ p.1 * cols + p.2 < k

/-- Active-adjacency restricted to the processed prefix. -/
def adjProc (active : Cell → Bool) (cols k : Nat) (p q : Cell) : Prop :=
  Proc active cols k p ∧ Proc active cols k q ∧ adj4 p q

/-- Helper: the row-major index is injective on cells with column below
cols. -/
theorem rmIdx_inj (cols : Nat) (p q : Cell) (hp : p.2 < cols) (hq : q.2 < cols)
    (h : p.1 * cols + p.2 = q.1 * cols + q.2) : p = q := by
  have h1 : p.1 = q.1 := by
    rcases Nat.lt_trichotomy p.1 q.1 with hlt | heq | hgt
    · exfalso
      have h2 : (p.1 + 1) * cols ≤ q.1 * cols :=
        Nat.mul_le_mul_right cols hlt
      have h3 : (p.1 + 1) * cols = p.1 * cols + cols := Nat.succ_mul p.1 cols
      omega
    · exact heq
    · exfalso
      have h2 : (q.1 + 1) * cols ≤ p.1 * cols :=
        Nat.mul_le_mul_right cols hgt
      have h3 : (q.1 + 1) * cols = q.1 * cols + cols := Nat.succ_mul q.1 cols
      omega
  have h2 : p.2 = q.2 := by
    rw [h1] at h
    omega
  exact Prod.ext h1 h2

/-- Helper: a cell inside the grid has row-major index below
rows * cols. -/
theorem rmIdx_lt (rows cols : Nat) (p : Cell) (h1 : p.1 < rows) (h2 : p.2 < cols) :
    p.1 * cols + p.2 < rows * cols := by
  have h3 : (p.1 + 1) * cols ≤ rows * cols := Nat.mul_le_mul_right cols h1
  have h4 : (p.1 + 1) * cols = p.1 * cols + cols := Nat.succ_mul p.1 cols
  omega

/-- Helper: a cell with column below cols and row-major index below
rows * cols has row below rows. -/
theorem row_lt_of_rmIdx_lt (rows cols : Nat) (p : Cell)
    (h : p.1 * cols + p.2 < rows * cols) : p.1 < rows := by
  by_contra hge
  have h2 : rows * cols ≤ p.1 * cols := Nat.mul_le_mul_right cols (by omega)
  omega

/-- Helper: the cell scanned at step k is the one with row-major index
k. -/
theorem cellOf_rmIdx (cols k : Nat) (hc : 0 < cols) :
    (k / cols) * cols + k % cols = k := by
  rw [Nat.mul_comm]
  exact Nat.div_add_mod k cols

/-- Helper: processed-set membership is monotone in the step count. -/
theorem Proc_mono (active : Cell → Bool) (cols k j : Nat) (hkj : k ≤ j) (p : Cell)
    (h : Proc active cols k p) : Proc active cols j p :=
  ⟨h.1, h.2.1, by have := h.2.2; omega⟩

/-- Helper: restricted adjacency is monotone in the step count. -/
theorem adjProc_mono (active : Cell → Bool) (cols k j : Nat) (hkj : k ≤ j) (p q : Cell)
    (h : adjProc active cols k p q) : adjProc active cols j p q :=
  ⟨Proc_mono active cols k j hkj p h.1, Proc_mono active cols k j hkj q h.2.1, h.2.2⟩

/-- Helper: 4-adjacency is symmetric. -/
theorem adj4_symm (p q : Cell) (h : adj4 p q) : adj4 q p := by
  unfold adj4 at h ⊢
  rcases h with ⟨h1, h2⟩ | ⟨h1, h2⟩
  · exact Or.inl ⟨h1.symm, h2.symm⟩
  · exact Or.inr ⟨h1.symm, h2.symm⟩

/-- Helper: the processed set after step k+1 is the processed set after
step k, plus the cell of index k when it is active. -/
theorem Proc_succ_iff (active : Cell → Bool) (cols : Nat) (hc : 0 < cols) (k : Nat)
    (p : Cell) :
    Proc active cols (k + 1) p ↔
      Proc active cols k p ∨ (p = (k / cols, k % cols) ∧ active p = true) := by
  constructor
  · rintro ⟨ha, hcol, hidx⟩
    rcases Nat.lt_or_ge (p.1 * cols + p.2) k with hlt | hge
    · exact Or.inl ⟨ha, hcol, hlt⟩
    · have heq : p.1 * cols + p.2 = k := by omega
      have hpe : p = (k / cols, k % cols) := by
        apply rmIdx_inj cols p (k / cols, k % cols) hcol (Nat.mod_lt _ hc)
        rw [heq]
        exact (cellOf_rmIdx cols k hc).symm
      exact Or.inr ⟨hpe, ha⟩
  · rintro (⟨ha, hcol, hidx⟩ | ⟨hpe, ha⟩)
    · exact ⟨ha, hcol, by omega⟩
    · subst hpe
      refine ⟨ha, Nat.mod_lt _ hc, ?_⟩
      show (k / cols) * cols + k % cols < k + 1
      have := cellOf_rmIdx cols k hc
      omega

/-- Helper: the cell scanned at step k is not yet in the processed set
of step k. -/
theorem cellOf_not_Proc (active : Cell → Bool) (cols : Nat) (hc : 0 < cols) (k : Nat) :
    ¬Proc active cols k (k / cols, k % cols) := by
  rintro ⟨-, -, hidx⟩
  have := cellOf_rmIdx cols k hc
  simp only at hidx
  omega

/-- Helper: a left-neighbor label is only reported for an in-row active
left neighbor, and is that neighbor's stored label. -/
theorem hkLeft_some (active : Cell → Bool) (s : HKState) (c : Cell) (a : Nat)
    (hL : hkLeft active s c = some a) :
    0 < c.2 ∧ active (c.1, c.2 - 1) = true ∧ s.label (c.1, c.2 - 1) = some a := by
  unfold hkLeft at hL
  by_cases h : 0 < c.2 ∧ active (c.1, c.2 - 1) = true
  · rw [if_pos h] at hL
    exact ⟨h.1, h.2, hL⟩
  · rw [if_neg h] at hL
    exact absurd hL (by simp)

/-- Helper: an up-neighbor label is only reported for an in-column
active up neighbor, and is that neighbor's stored label. -/
theorem hkUp_some (active : Cell → Bool) (s : HKState) (c : Cell) (b : Nat)
    (hU : hkUp active s c = some b) :
    0 < c.1 ∧ active (c.1 - 1, c.2) = true ∧ s.label (c.1 - 1, c.2) = some b := by
  unfold hkUp at hU
  by_cases h : 0 < c.1 ∧ active (c.1 - 1, c.2) = true
  · rw [if_pos h] at hU
    exact ⟨h.1, h.2, hU⟩
  · rw [if_neg h] at hU
    exact absurd hU (by simp)

/-- Helper: a cell is 4-adjacent to its left neighbor. -/
theorem adj4_left (c : Cell) (h : 0 < c.2) : adj4 (c.1, c.2 - 1) c := by
  unfold adj4
  left
  refine ⟨rfl, Or.inl ?_⟩
  show c.2 - 1 + 1 = c.2
  omega

/-- Helper: a cell is 4-adjacent to its up neighbor. -/
theorem adj4_up (c : Cell) (h : 0 < c.1) : adj4 (c.1 - 1, c.2) c := by
  unfold adj4
  right
  refine ⟨rfl, Or.inl ?_⟩
  show c.1 - 1 + 1 = c.1
  omega

/-- Helper: the left neighbor of the cell scanned at step k is
processed when it is active. -/
theorem left_Proc (active : Cell → Bool) (cols k : Nat) (hc : 0 < cols)
    (hcc : 0 < k % cols) (ha : active (k / cols, k % cols - 1) = true) :
    Proc active cols k (k / cols, k % cols - 1) := by
  have hrm := cellOf_rmIdx cols k hc
  have hlt := Nat.mod_lt k hc
  refine ⟨ha, ?_, ?_⟩
  · show k % cols - 1 < cols
    omega
  · show (k / cols) * cols + (k % cols - 1) < k
    omega

/-- Helper: the up neighbor of the cell scanned at step k is processed
when it is active. -/
theorem up_Proc (active : Cell → Bool) (cols k : Nat) (hc : 0 < cols)
    (hrr : 0 < k / cols) (ha : active (k / cols - 1, k % cols) = true) :
    Proc active cols k (k / cols - 1, k % cols) := by
  have hrm := cellOf_rmIdx cols k hc
  obtain ⟨n, hn⟩ : ∃ n, k / cols = n + 1 := ⟨k / cols - 1, by omega⟩
  have hsm : (k / cols - 1) * cols + cols = (k / cols) * cols := by
    rw [hn]
    simp only [Nat.add_sub_cancel]
    rw [Nat.succ_mul]
  refine ⟨ha, Nat.mod_lt _ hc, ?_⟩
  show (k / cols - 1) * cols + k % cols < k
  omega

/-- Helper: the scan invariant: after k steps, (1) exactly the processed
active cells carry a label, (2) all labels are below the next fresh
label, (3) equal labels imply connectivity in the processed prefix. -/
theorem hkScan_inv (active : Cell → Bool) (cols : Nat) (hc : 0 < cols) :
    ∀ k,
      (∀ p, (hkScan active cols k).label p ≠ none ↔ Proc active cols k p) ∧
      (∀ p v, (hkScan active cols k).label p = some v → v < (hkScan active cols k).next) ∧
      (∀ p q, Proc active cols k p → Proc active cols k q →
        (hkScan active cols k).label p = (hkScan active cols k).label q →
        Relation.EqvGen (adjProc active cols k) p q) := by
  intro k
  induction k with
  | zero =>
    refine ⟨?_, ?_, ?_⟩
    · intro p
      constructor
      · intro h
        exact absurd rfl h
      · rintro ⟨-, -, h⟩
        omega
    · intro p v h
      exact absurd h (by simp [hkScan, initHK])
    · rintro p q ⟨-, -, h⟩ - -
      omega
  | succ k ih =>
    obtain ⟨iha, ihb, ihd⟩ := ih
    have hc2 : k % cols < cols := Nat.mod_lt _ hc
    have hrm : (k / cols) * cols + k % cols = k := cellOf_rmIdx cols k hc
    have hstep : hkScan active cols (k + 1) =
        hkStep active (hkScan active cols k) (k / cols, k % cols) := rfl
    have hmono : ∀ x y, Relation.EqvGen (adjProc active cols k) x y →
        Relation.EqvGen (adjProc active cols (k + 1)) x y :=
      fun x y h => Relation.EqvGen.mono
        (fun u v hv => adjProc_mono active cols k (k + 1) (Nat.le_succ k) u v hv) h
    by_cases hac : active (k / cols, k % cols) = true
    · -- the scanned cell is active
      have hPc1 : Proc active cols (k + 1) (k / cols, k % cols) :=
        (Proc_succ_iff active cols hc k _).mpr (Or.inr ⟨rfl, hac⟩)
      have hProcElim : ∀ p, Proc active cols (k + 1) p → p ≠ (k / cols, k % cols) →
          Proc active cols k p := by
        intro p hp hpc
        rcases (Proc_succ_iff active cols hc k p).mp hp with h | ⟨he, -⟩
        · exact h
        · exact absurd he hpc
      cases hL : hkLeft active (hkScan active cols k) (k / cols, k % cols) with
      | none =>
        cases hU : hkUp active (hkScan active cols k) (k / cols, k % cols) with
        | none =>
          -- fresh label
          have hss : hkScan active cols (k + 1) =
              assignLabel (hkScan active cols k) (k / cols, k % cols) (none, none) := by
            rw [hstep]
            unfold hkStep
            rw [if_pos hac, hL, hU]
          refine ⟨?_, ?_, ?_⟩
          · intro p
            rw [hss]
            simp only [assignLabel]
            by_cases hpc : p = (k / cols, k % cols)
            · rw [if_pos hpc]
              simp only [ne_eq, reduceCtorEq, not_false_eq_true, true_iff]
              exact hpc ▸ hPc1
            · rw [if_neg hpc]
              rw [Proc_succ_iff active cols hc k p]
              constructor
              · intro h
                exact Or.inl ((iha p).mp h)
              · intro h
                exact (iha p).mpr (h.resolve_right (fun hh => hpc hh.1))
          · intro p v h
            rw [hss] at h ⊢
            simp only [assignLabel] at h ⊢
            by_cases hpc : p = (k / cols, k % cols)
            · rw [if_pos hpc] at h
              have : v = (hkScan active cols k).next := by
                injection h with h2
                exact h2.symm
              omega
            · rw [if_neg hpc] at h
              have := ihb p v h
              omega
          · intro p q hp hq hl
            rw [hss] at hl
            simp only [assignLabel] at hl
            by_cases hpc : p = (k / cols, k % cols) <;>
              by_cases hqc : q = (k / cols, k % cols)
            · rw [hpc, hqc]
              exact Relation.EqvGen.refl _
            · rw [if_pos hpc, if_neg hqc] at hl
              have hqk := hProcElim q hq hqc
              have := ihb q (hkScan active cols k).next hl.symm
              omega
            · rw [if_neg hpc, if_pos hqc] at hl
              have hpk := hProcElim p hp hpc
              have := ihb p (hkScan active cols k).next hl
              omega
            · rw [if_neg hpc, if_neg hqc] at hl
              exact hmono p q (ihd p q (hProcElim p hp hpc) (hProcElim q hq hqc) hl)
        | some b =>
          -- inherit the up neighbor's label
          obtain ⟨hUpos, hUact, hUlab⟩ :=
            hkUp_some active (hkScan active cols k) (k / cols, k % cols) b hU
          have hUpos2 : 0 < k / cols := hUpos
          have hUact2 : active (k / cols - 1, k % cols) = true := hUact
          have hUlab2 : (hkScan active cols k).label (k / cols - 1, k % cols) = some b := hUlab
          have hPU : Proc active cols k (k / cols - 1, k % cols) :=
            up_Proc active cols k hc hUpos2 hUact2
          have hAU : adj4 (k / cols - 1, k % cols) (k / cols, k % cols) :=
            adj4_up (k / cols, k % cols) hUpos2
          have hedge : adjProc active cols (k + 1) (k / cols, k % cols) (k / cols - 1, k % cols) :=
            ⟨hPc1, Proc_mono active cols k (k + 1) (Nat.le_succ k) _ hPU, adj4_symm _ _ hAU⟩
          have hconn : ∀ x, Proc active cols k x →
              (hkScan active cols k).label x = some b →
              Relation.EqvGen (adjProc active cols (k + 1)) (k / cols, k % cols) x := by
            intro x hx hxl
            exact Relation.EqvGen.trans _ _ _ (Relation.EqvGen.rel _ _ hedge)
              (hmono _ _ (ihd _ x hPU hx (hUlab2.trans hxl.symm)))
          have hss : hkScan active cols (k + 1) =
              assignLabel (hkScan active cols k) (k / cols, k % cols) (none, some b) := by
            rw [hstep]
            unfold hkStep
            rw [if_pos hac, hL, hU]
          refine ⟨?_, ?_, ?_⟩
          · intro p
            rw [hss]
            simp only [assignLabel]
            by_cases hpc : p = (k / cols, k % cols)
            · rw [if_pos hpc]
              simp only [ne_eq, reduceCtorEq, not_false_eq_true, true_iff]
              exact hpc ▸ hPc1
            · rw [if_neg hpc]
              rw [Proc_succ_iff active cols hc k p]
              constructor
              · intro h
                exact Or.inl ((iha p).mp h)
              · intro h
                exact (iha p).mpr (h.resolve_right (fun hh => hpc hh.1))
          · intro p v h
            rw [hss] at h ⊢
            simp only [assignLabel] at h ⊢
            by_cases hpc : p = (k / cols, k % cols)
            · rw [if_pos hpc] at h
              have hvb : v = b := by
                injection h with h2
                exact h2.symm
              exact hvb ▸ ihb _ b hUlab2
            · rw [if_neg hpc] at h
              exact ihb p v h
          · intro p q hp hq hl
            rw [hss] at hl
            simp only [assignLabel] at hl
            by_cases hpc : p = (k / cols, k % cols) <;>
              by_cases hqc : q = (k / cols, k % cols)
            · rw [hpc, hqc]
              exact Relation.EqvGen.refl _
            · rw [if_pos hpc, if_neg hqc] at hl
              rw [hpc]
              exact hconn q (hProcElim q hq hqc) hl.symm
            · rw [if_neg hpc, if_pos hqc] at hl
              rw [hqc]
              exact Relation.EqvGen.symm _ _ (hconn p (hProcElim p hp hpc) hl)
            · rw [if_neg hpc, if_neg hqc] at hl
              exact hmono p q (ihd p q (hProcElim p hp hpc) (hProcElim q hq hqc) hl)
      | some a =>
        cases hU : hkUp active (hkScan active cols k) (k / cols, k % cols) with
        | none =>
          -- inherit the left neighbor's label
          obtain ⟨hLpos, hLact, hLlab⟩ :=
            hkLeft_some active (hkScan active cols k) (k / cols, k % cols) a hL
          have hLpos2 : 0 < k % cols := hLpos
          have hLact2 : active (k / cols, k % cols - 1) = true := hLact
          have hLlab2 : (hkScan active cols k).label (k / cols, k % cols - 1) = some a := hLlab
          have hPL : Proc active cols k (k / cols, k % cols - 1) :=
            left_Proc active cols k hc hLpos2 hLact2
          have hAL : adj4 (k / cols, k % cols - 1) (k / cols, k % cols) :=
            adj4_left (k / cols, k % cols) hLpos2
          have hedge : adjProc active cols (k + 1) (k / cols, k % cols) (k / cols, k % cols - 1) :=
            ⟨hPc1, Proc_mono active cols k (k + 1) (Nat.le_succ k) _ hPL, adj4_symm _ _ hAL⟩
          have hconn : ∀ x, Proc active cols k x →
              (hkScan active cols k).label x = some a →
              Relation.EqvGen (adjProc active cols (k + 1)) (k / cols, k % cols) x := by
            intro x hx hxl
            exact Relation.EqvGen.trans _ _ _ (Relation.EqvGen.rel _ _ hedge)
              (hmono _ _ (ihd _ x hPL hx (hLlab2.trans hxl.symm)))
          have hss : hkScan active cols (k + 1) =
              assignLabel (hkScan active cols k) (k / cols, k % cols) (some a, none) := by
            rw [hstep]
            unfold hkStep
            rw [if_pos hac, hL, hU]
          refine ⟨?_, ?_, ?_⟩
          · intro p
            rw [hss]
            simp only [assignLabel]
            by_cases hpc : p = (k / cols, k % cols)
            · rw [if_pos hpc]
              simp only [ne_eq, reduceCtorEq, not_false_eq_true, true_iff]
              exact hpc ▸ hPc1
            · rw [if_neg hpc]
              rw [Proc_succ_iff active cols hc k p]
              constructor
              · intro h
                exact Or.inl ((iha p).mp h)
              · intro h
                exact (iha p).mpr (h.resolve_right (fun hh => hpc hh.1))
          · intro p v h
            rw [hss] at h ⊢
            simp only [assignLabel] at h ⊢
            by_cases hpc : p = (k / cols, k % cols)
            · rw [if_pos hpc] at h
              have hva : v = a := by
                injection h with h2
                exact h2.symm
              exact hva ▸ ihb _ a hLlab2
            · rw [if_neg hpc] at h
              exact ihb p v h
          · intro p q hp hq hl
            rw [hss] at hl
            simp only [assignLabel] at hl
            by_cases hpc : p = (k / cols, k % cols) <;>
              by_cases hqc : q = (k / cols, k % cols)
            · rw [hpc, hqc]
              exact Relation.EqvGen.refl _
            · rw [if_pos hpc, if_neg hqc] at hl
              rw [hpc]
              exact hconn q (hProcElim q hq hqc) hl.symm
            · rw [if_neg hpc, if_pos hqc] at hl
              rw [hqc]
              exact Relation.EqvGen.symm _ _ (hconn p (hProcElim p hp hpc) hl)
            · rw [if_neg hpc, if_neg hqc] at hl
              exact hmono p q (ihd p q (hProcElim p hp hpc) (hProcElim q hq hqc) hl)
        | some b =>
          -- two labeled neighbors: union, canonical label is the minimum
          obtain ⟨hLpos, hLact, hLlab⟩ :=
            hkLeft_some active (hkScan active cols k) (k / cols, k % cols) a hL
          obtain ⟨hUpos, hUact, hUlab⟩ :=
            hkUp_some active (hkScan active cols k) (k / cols, k % cols) b hU
          have hLpos2 : 0 < k % cols := hLpos
          have hLact2 : active (k / cols, k % cols - 1) = true := hLact
          have hLlab2 : (hkScan active cols k).label (k / cols, k % cols - 1) = some a := hLlab
          have hUpos2 : 0 < k / cols := hUpos
          have hUact2 : active (k / cols - 1, k % cols) = true := hUact
          have hUlab2 : (hkScan active cols k).label (k / cols - 1, k % cols) = some b := hUlab
          have hPL : Proc active cols k (k / cols, k % cols - 1) :=
            left_Proc active cols k hc hLpos2 hLact2
          have hPU : Proc active cols k (k / cols - 1, k % cols) :=
            up_Proc active cols k hc hUpos2 hUact2
          have hAL : adj4 (k / cols, k % cols - 1) (k / cols, k % cols) :=
            adj4_left (k / cols, k % cols) hLpos2
          have hAU : adj4 (k / cols - 1, k % cols) (k / cols, k % cols) :=
            adj4_up (k / cols, k % cols) hUpos2
          obtain ⟨em, eM, hemP, heMP, hemAdj, heMAdj, hemL, heML⟩ :
              ∃ em eM, Proc active cols k em ∧ Proc active cols k eM ∧
                adj4 em (k / cols, k % cols) ∧ adj4 eM (k / cols, k % cols) ∧
                (hkScan active cols k).label em = some (min a b) ∧
                (hkScan active cols k).label eM = some (max a b) := by
            rcases le_total a b with hab | hba
            · exact ⟨_, _, hPL, hPU, hAL, hAU,
                by rw [hLlab2, Nat.min_eq_left hab],
                by rw [hUlab2, Nat.max_eq_right hab]⟩
            · exact ⟨_, _, hPU, hPL, hAU, hAL,
                by rw [hUlab2, Nat.min_eq_right hba],
                by rw [hLlab2, Nat.max_eq_left hba]⟩
          have hedgem : adjProc active cols (k + 1) (k / cols, k % cols) em :=
            ⟨hPc1, Proc_mono active cols k (k + 1) (Nat.le_succ k) _ hemP, adj4_symm _ _ hemAdj⟩
          have hedgeM : adjProc active cols (k + 1) (k / cols, k % cols) eM :=
            ⟨hPc1, Proc_mono active cols k (k + 1) (Nat.le_succ k) _ heMP, adj4_symm _ _ heMAdj⟩
          have hconnm : ∀ x, Proc active cols k x →
              (hkScan active cols k).label x = some (min a b) →
              Relation.EqvGen (adjProc active cols (k + 1)) (k / cols, k % cols) x := by
            intro x hx hxl
            exact Relation.EqvGen.trans _ _ _ (Relation.EqvGen.rel _ _ hedgem)
              (hmono _ _ (ihd em x hemP hx (hemL.trans hxl.symm)))
          have hconnM : ∀ x, Proc active cols k x →
              (hkScan active cols k).label x = some (max a b) →
              Relation.EqvGen (adjProc active cols (k + 1)) (k / cols, k % cols) x := by
            intro x hx hxl
            exact Relation.EqvGen.trans _ _ _ (Relation.EqvGen.rel _ _ hedgeM)
              (hmono _ _ (ihd eM x heMP hx (heML.trans hxl.symm)))
          have hss : hkScan active cols (k + 1) =
              assignLabel (hkScan active cols k) (k / cols, k % cols) (some a, some b) := by
            rw [hstep]
            unfold hkStep
            rw [if_pos hac, hL, hU]
          refine ⟨?_, ?_, ?_⟩
          · intro p
            rw [hss]
            simp only [assignLabel]
            by_cases hpc : p = (k / cols, k % cols)
            · rw [if_pos hpc]
              simp only [ne_eq, reduceCtorEq, not_false_eq_true, true_iff]
              exact hpc ▸ hPc1
            · rw [if_neg hpc]
              rw [Proc_succ_iff active cols hc k p]
              by_cases hpM : (hkScan active cols k).label p = some (max a b)
              · rw [if_pos hpM]
                simp only [ne_eq, reduceCtorEq, not_false_eq_true, true_iff]
                exact Or.inl ((iha p).mp (by rw [hpM]; simp))
              · rw [if_neg hpM]
                constructor
                · intro h
                  exact Or.inl ((iha p).mp h)
                · intro h
                  exact (iha p).mpr (h.resolve_right (fun hh => hpc hh.1))
          · intro p v h
            rw [hss] at h ⊢
            simp only [assignLabel] at h ⊢
            have hma : min a b ≤ a := Nat.min_le_left a b
            have halt : a < (hkScan active cols k).next := ihb _ a hLlab2
            by_cases hpc : p = (k / cols, k % cols)
            · rw [if_pos hpc] at h
              have hvm : v = min a b := by
                injection h with h2
                exact h2.symm
              omega
            · rw [if_neg hpc] at h
              by_cases hpM : (hkScan active cols k).label p = some (max a b)
              · rw [if_pos hpM] at h
                have hvm : v = min a b := by
                  injection h with h2
                  exact h2.symm
                omega
              · rw [if_neg hpM] at h
                exact ihb p v h
          · intro p q hp hq hl
            rw [hss] at hl
            simp only [assignLabel] at hl
            by_cases hpc : p = (k / cols, k % cols) <;>
              by_cases hqc : q = (k / cols, k % cols)
            · rw [hpc, hqc]
              exact Relation.EqvGen.refl _
            · rw [if_pos hpc, if_neg hqc] at hl
              rw [hpc]
              have hqk := hProcElim q hq hqc
              by_cases hqM : (hkScan active cols k).label q = some (max a b)
              · exact hconnM q hqk hqM
              · rw [if_neg hqM] at hl
                exact hconnm q hqk hl.symm
            · rw [if_neg hpc, if_pos hqc] at hl
              rw [hqc]
              have hpk := hProcElim p hp hpc
              by_cases hpM : (hkScan active cols k).label p = some (max a b)
              · exact Relation.EqvGen.symm _ _ (hconnM p hpk hpM)
              · rw [if_neg hpM] at hl
                exact Relation.EqvGen.symm _ _ (hconnm p hpk hl)
            · rw [if_neg hpc, if_neg hqc] at hl
              have hpk := hProcElim p hp hpc
              have hqk := hProcElim q hq hqc
              by_cases hpM : (hkScan active cols k).label p = some (max a b) <;>
                by_cases hqM : (hkScan active cols k).label q = some (max a b)
              · exact hmono p q (ihd p q hpk hqk (hpM.trans hqM.symm))
              · rw [if_pos hpM, if_neg hqM] at hl
                exact Relation.EqvGen.trans _ _ _
                  (Relation.EqvGen.symm _ _ (hconnM p hpk hpM))
                  (hconnm q hqk hl.symm)
              · rw [if_neg hpM, if_pos hqM] at hl
                exact Relation.EqvGen.trans _ _ _
                  (Relation.EqvGen.symm _ _ (hconnm p hpk hl))
                  (hconnM q hqk hqM)
              · rw [if_neg hpM, if_neg hqM] at hl
                exact hmono p q (ihd p q hpk hqk hl)
    · -- the scanned cell is inactive: nothing changes
      have hss : hkScan active cols (k + 1) = hkScan active cols k := by
        rw [hstep]
        unfold hkStep
        rw [if_neg hac]
      have hproc : ∀ p, Proc active cols (k + 1) p ↔ Proc active cols k p := by
        intro p
        rw [Proc_succ_iff active cols hc k p]
        constructor
        · rintro (h | ⟨hpe, ha⟩)
          · exact h
          · exact absurd (hpe ▸ ha) hac
        · exact Or.inl
      refine ⟨?_, ?_, ?_⟩
      · intro p
        rw [hss]
        exact (iha p).trans (hproc p).symm
      · intro p v h
        rw [hss] at h ⊢
        exact ihb p v h
      · intro p q hp hq hl
        rw [hss] at hl
        exact hmono p q (ihd p q ((hproc p).mp hp) ((hproc q).mp hq) hl)

/-- Helper: one scan step never separates two already-labeled cells
other than the scanned one: equal labels stay equal. -/
theorem hkStep_preserves_eq (active : Cell → Bool) (s : HKState) (c p q : Cell)
    (hpc : p ≠ c) (hqc : q ≠ c) (h : s.label p = s.label q) :
    (hkStep active s c).label p = (hkStep active s c).label q := by
  unfold hkStep
  by_cases hac : active c = true
  · rw [if_pos hac]
    cases hL : hkLeft active s c with
    | none =>
      cases hU : hkUp active s c with
      | none =>
        simp only [assignLabel, if_neg hpc, if_neg hqc]
        exact h
      | some b =>
        simp only [assignLabel, if_neg hpc, if_neg hqc]
        exact h
    | some a =>
      cases hU : hkUp active s c with
      | none =>
        simp only [assignLabel, if_neg hpc, if_neg hqc]
        exact h
      | some b =>
        simp only [assignLabel, if_neg hpc, if_neg hqc]
        rw [h]
  · rw [if_neg hac]
    exact h

/-- Helper: once two processed cells carry equal labels, they carry
equal labels at every later step of the scan. -/
theorem hkScan_preserves_eq (active : Cell → Bool) (cols : Nat) (hc : 0 < cols)
    (k : Nat) (p q : Cell) (hp : Proc active cols k p) (hq : Proc active cols k q) :
    ∀ j, k ≤ j → (hkScan active cols k).label p = (hkScan active cols k).label q →
      (hkScan active cols j).label p = (hkScan active cols j).label q := by
  intro j
  induction j with
  | zero =>
    intro hj h
    have hk0 : k = 0 := Nat.le_zero.mp hj
    rw [← hk0]
    exact h
  | succ j ihj =>
    intro hj h
    rcases Nat.eq_or_lt_of_le hj with heq | hlt
    · rw [← heq]
      exact h
    · have hj2 : k ≤ j := by omega
      have hstep : hkScan active cols (j + 1) =
          hkStep active (hkScan active cols j) (j / cols, j % cols) := rfl
      have hrmj := cellOf_rmIdx cols j hc
      rw [hstep]
      apply hkStep_preserves_eq
      · intro hpe
        have hx : p.1 * cols + p.2 < k := hp.2.2
        rw [hpe] at hx
        have hx2 : (j / cols) * cols + j % cols < k := hx
        omega
      · intro hqe
        have hx : q.1 * cols + q.2 < k := hq.2.2
        rw [hqe] at hx
        have hx2 : (j / cols) * cols + j % cols < k := hx
        omega
      · exact ihj hj2 h

/-- Helper: when the scanned cell is active, it ends the step with the
same label as any processed 4-adjacent cell. -/
theorem hkStep_joins (active : Cell → Bool) (cols k : Nat) (hc : 0 < cols)
    (p : Cell) (hp : Proc active cols k p) (hadj : adj4 p (k / cols, k % cols))
    (hac : active (k / cols, k % cols) = true) :
    (hkScan active cols (k + 1)).label p =
      (hkScan active cols (k + 1)).label (k / cols, k % cols) := by
  have hrm := cellOf_rmIdx cols k hc
  have hidx : p.1 * cols + p.2 < k := hp.2.2
  have hcolp : p.2 < cols := hp.2.1
  have hstep : hkScan active cols (k + 1) =
      hkStep active (hkScan active cols k) (k / cols, k % cols) := rfl
  have hinv := hkScan_inv active cols hc k
  -- p is the left or the up neighbor of the scanned cell
  have hpe : p = (k / cols, k % cols - 1) ∧ 0 < k % cols ∨
      p = (k / cols - 1, k % cols) ∧ 0 < k / cols := by
    rcases hadj with ⟨hrow, hcase⟩ | ⟨hcol2, hcase⟩
    · have hr2 : p.1 = k / cols := hrow
      rcases hcase with hcp | hpc2
      · have hcp2 : p.2 + 1 = k % cols := hcp
        left
        constructor
        · apply Prod.ext hr2
          show p.2 = k % cols - 1
          omega
        · omega
      · exfalso
        have hp2 : k % cols + 1 = p.2 := hpc2
        rw [hr2] at hidx
        omega
    · have hcc : p.2 = k % cols := hcol2
      rcases hcase with hcp | hpc2
      · have hcp2 : p.1 + 1 = k / cols := hcp
        right
        constructor
        · apply Prod.ext ?_ hcc
          show p.1 = k / cols - 1
          omega
        · omega
      · exfalso
        have hp1 : k / cols + 1 = p.1 := hpc2
        have hmul : (k / cols + 1) * cols = (k / cols) * cols + cols :=
          Nat.succ_mul (k / cols) cols
        have h2 : (k / cols + 1) * cols ≤ p.1 * cols :=
          Nat.mul_le_mul_right cols (by omega)
        omega
  rcases hpe with ⟨hpe, hl0⟩ | ⟨hpe, hu0⟩
  · -- left neighbor
    have hactp : active (k / cols, k % cols - 1) = true := hpe ▸ hp.1
    obtain ⟨a, ha⟩ : ∃ a, (hkScan active cols k).label (k / cols, k % cols - 1) = some a := by
      have hne := (hinv.1 (k / cols, k % cols - 1)).mpr (hpe ▸ hp)
      cases hsl : (hkScan active cols k).label (k / cols, k % cols - 1) with
      | none => exact absurd hsl hne
      | some a => exact ⟨a, rfl⟩
    have hLval : hkLeft active (hkScan active cols k) (k / cols, k % cols) = some a := by
      unfold hkLeft
      rw [if_pos ⟨hl0, hactp⟩]
      exact ha
    have hpnec : p ≠ (k / cols, k % cols) := by
      rw [hpe]
      intro he
      have := congrArg Prod.snd he
      simp only at this
      omega
    rw [hpe] at hpnec ⊢
    cases hU : hkUp active (hkScan active cols k) (k / cols, k % cols) with
    | none =>
      have hss : hkScan active cols (k + 1) =
          assignLabel (hkScan active cols k) (k / cols, k % cols) (some a, none) := by
        rw [hstep]
        unfold hkStep
        rw [if_pos hac, hLval, hU]
      rw [hss]
      simp only [assignLabel, if_neg hpnec, if_pos rfl]
      exact ha
    | some b =>
      have hss : hkScan active cols (k + 1) =
          assignLabel (hkScan active cols k) (k / cols, k % cols) (some a, some b) := by
        rw [hstep]
        unfold hkStep
        rw [if_pos hac, hLval, hU]
      rw [hss]
      simp only [assignLabel, if_neg hpnec, if_pos rfl]
      by_cases hamax : (hkScan active cols k).label (k / cols, k % cols - 1) = some (max a b)
      · rw [if_pos hamax]
        simp
      · rw [if_neg hamax, ha]
        have hne : a ≠ max a b := by
          intro he
          exact hamax (by rw [ha, ← he])
        have hmin : min a b = a := by
          rcases Nat.le_total a b with hab | hba
          · exact Nat.min_eq_left hab
          · exact absurd (Nat.max_eq_left hba).symm hne
        rw [hmin]
        simp
  · -- up neighbor
    have hactp : active (k / cols - 1, k % cols) = true := hpe ▸ hp.1
    obtain ⟨b, hb⟩ : ∃ b, (hkScan active cols k).label (k / cols - 1, k % cols) = some b := by
      have hne := (hinv.1 (k / cols - 1, k % cols)).mpr (hpe ▸ hp)
      cases hsl : (hkScan active cols k).label (k / cols - 1, k % cols) with
      | none => exact absurd hsl hne
      | some b => exact ⟨b, rfl⟩
    have hUval : hkUp active (hkScan active cols k) (k / cols, k % cols) = some b := by
      unfold hkUp
      rw [if_pos ⟨hu0, hactp⟩]
      exact hb
    have hpnec : p ≠ (k / cols, k % cols) := by
      rw [hpe]
      intro he
      have := congrArg Prod.fst he
      simp only at this
      omega
    rw [hpe] at hpnec ⊢
    cases hL : hkLeft active (hkScan active cols k) (k / cols, k % cols) with
    | none =>
      have hss : hkScan active cols (k + 1) =
          assignLabel (hkScan active cols k) (k / cols, k % cols) (none, some b) := by
        rw [hstep]
        unfold hkStep
        rw [if_pos hac, hL, hUval]
      rw [hss]
      simp only [assignLabel, if_neg hpnec, if_pos rfl]
      exact hb
    | some a =>
      have hss : hkScan active cols (k + 1) =
          assignLabel (hkScan active cols k) (k / cols, k % cols) (some a, some b) := by
        rw [hstep]
        unfold hkStep
        rw [if_pos hac, hL, hUval]
      rw [hss]
      simp only [assignLabel, if_neg hpnec, if_pos rfl]
      by_cases hbmax : (hkScan active cols k).label (k / cols - 1, k % cols) = some (max a b)
      · rw [if_pos hbmax]
        simp
      · rw [if_neg hbmax, hb]
        have hne : b ≠ max a b := by
          intro he
          exact hbmax (by rw [hb, ← he])
        have hmin : min a b = b := by
          rcases Nat.le_total b a with hba | hab
          · exact Nat.min_eq_right hba
          · exact absurd (Nat.max_eq_right hab).symm hne
        rw [hmin]
        simp

/-- Helper: after the full pass the processed set is exactly the active
in-grid cells. -/
theorem Proc_final (active : Cell → Bool) (rows cols : Nat) (p : Cell) :
    Proc active cols (rows * cols) p ↔ (active p = true ∧ inGrid rows cols p) := by
  constructor
  · rintro ⟨ha, hcol, hidx⟩
    exact ⟨ha, row_lt_of_rmIdx_lt rows cols p hidx, hcol⟩
  · rintro ⟨ha, hrow, hcol⟩
    exact ⟨ha, hcol, rmIdx_lt rows cols p hrow hcol⟩

/-- Helper: after the full pass the restricted adjacency is exactly the
active-adjacency of the grid. -/
theorem adjProc_final (active : Cell → Bool) (rows cols : Nat) (p q : Cell) :
    adjProc active cols (rows * cols) p q ↔ activeAdj active rows cols p q := by
  unfold adjProc activeAdj
  rw [Proc_final, Proc_final]
  constructor
  · rintro ⟨⟨ha, hg⟩, ⟨hb, hg2⟩, hadj⟩
    exact ⟨ha, hb, hg, hg2, hadj⟩
  · rintro ⟨ha, hb, hg, hg2, hadj⟩
    exact ⟨⟨ha, hg⟩, ⟨hb, hg2⟩, hadj⟩

/-- Helper: the equivalence closure of an empty relation only relates
equal elements. -/
theorem eqvGen_eq_of_empty {α : Type} (R : α → α → Prop) (hR : ∀ a b, ¬R a b)
    (x y : α) (h : Relation.EqvGen R x y) : x = y := by
  induction h with
  | rel a b hab => exact absurd hab (hR a b)
  | refl a => rfl
  | symm a b _ ih => exact ih.symm
  | trans a b d _ _ ih1 ih2 => exact ih1.trans ih2

/-- Helper: an active cell ends the pass with the same label as any
active 4-adjacent cell scanned before it. -/
theorem hk_complete_aux (active : Cell → Bool) (rows cols : Nat) (hc : 0 < cols)
    (p q : Cell) (hap : active p = true) (haq : active q = true)
    (hgp : inGrid rows cols p) (hgq : inGrid rows cols q) (hadj : adj4 p q)
    (hlt : p.1 * cols + p.2 < q.1 * cols + q.2) :
    (hkPass active rows cols).label p = (hkPass active rows cols).label q := by
  have hq1 : (q.1 * cols + q.2) / cols = q.1 := by
    rw [Nat.mul_comm q.1 cols, Nat.mul_add_div hc, Nat.div_eq_of_lt hgq.2, Nat.add_zero]
  have hq2 : (q.1 * cols + q.2) % cols = q.2 := by
    rw [Nat.mul_comm q.1 cols, Nat.mul_add_mod, Nat.mod_eq_of_lt hgq.2]
  have hqe : ((q.1 * cols + q.2) / cols, (q.1 * cols + q.2) % cols) = q := by
    rw [hq1, hq2]
  have hPp : Proc active cols (q.1 * cols + q.2) p := ⟨hap, hgp.2, hlt⟩
  have hadj2 : adj4 p ((q.1 * cols + q.2) / cols, (q.1 * cols + q.2) % cols) := by
    rw [hqe]
    exact hadj
  have hac2 : active ((q.1 * cols + q.2) / cols, (q.1 * cols + q.2) % cols) = true := by
    rw [hqe]
    exact haq
  have hjoin := hkStep_joins active cols (q.1 * cols + q.2) hc p hPp hadj2 hac2
  rw [hqe] at hjoin
  have hkk : q.1 * cols + q.2 + 1 ≤ rows * cols := by
    have := rmIdx_lt rows cols q hgq.1 hgq.2
    omega
  have hPp1 : Proc active cols (q.1 * cols + q.2 + 1) p := ⟨hap, hgp.2, by omega⟩
  have hPq1 : Proc active cols (q.1 * cols + q.2 + 1) q :=
    ⟨haq, hgq.2, by omega⟩
  show (hkScan active cols (rows * cols)).label p = (hkScan active cols (rows * cols)).label q
  exact hkScan_preserves_eq active cols hc (q.1 * cols + q.2 + 1) p q hPp1 hPq1
    (rows * cols) hkk hjoin

/-- Helper: every active-adjacency edge ends the pass with equal
labels. -/
theorem hk_complete (active : Cell → Bool) (rows cols : Nat) (hc : 0 < cols)
    (p q : Cell) (h : activeAdj active rows cols p q) :
    (hkPass active rows cols).label p = (hkPass active rows cols).label q := by
  obtain ⟨hap, haq, hgp, hgq, hadj⟩ := h
  rcases Nat.lt_trichotomy (p.1 * cols + p.2) (q.1 * cols + q.2) with hlt | heq | hgt
  · exact hk_complete_aux active rows cols hc p q hap haq hgp hgq hadj hlt
  · have hpq : p = q := rmIdx_inj cols p q hgp.2 hgq.2 heq
    rw [hpq]
  · exact (hk_complete_aux active rows cols hc q p haq hap hgq hgp
      (adj4_symm p q hadj) hgt).symm

/-- Helper: connected cells end the pass with equal labels. -/
theorem hk_complete_gen (active : Cell → Bool) (rows cols : Nat) (hc : 0 < cols)
    (p q : Cell) (h : hkConnected active rows cols p q) :
    (hkPass active rows cols).label p = (hkPass active rows cols).label q := by
  induction h with
  | rel x y hxy => exact hk_complete active rows cols hc x y hxy
  | refl x => rfl
  | symm x y _ ih => exact ih.symm
  | trans x y z _ _ ih1 ih2 => exact ih1.trans ih2

/-- Helper: the pass assigns equal labels exactly to connected active
in-grid cells. -/
theorem hk_partition_iff (rows cols : Nat) (active : Cell → Bool) (p q : Cell)
    (hap : active p = true) (haq : active q = true)
    (hgp : inGrid rows cols p) (hgq : inGrid rows cols q) :
    ((hkPass active rows cols).label p = (hkPass active rows cols).label q ↔
      hkConnected active rows cols p q) := by
  have hc : 0 < cols := by
    rcases hgp with ⟨-, h⟩
    omega
  constructor
  · intro h
    have hinv := (hkScan_inv active cols hc (rows * cols)).2.2
    have hPp : Proc active cols (rows * cols) p := (Proc_final active rows cols p).mpr ⟨hap, hgp⟩
    have hPq : Proc active cols (rows * cols) q := (Proc_final active rows cols q).mpr ⟨haq, hgq⟩
    have hconn := hinv p q hPp hPq h
    exact Relation.EqvGen.mono (fun u v hv => (adjProc_final active rows cols u v).mp hv) hconn
  · intro h
    exact hk_complete_gen active rows cols hc p q h

/-- The active map of two only-diagonally-adjacent pixels at (r,c) and
(r+1,c+1). -/
def diagActive (r c : Nat) : Cell → Bool :=
  fun p => decide (p = (r, c) ∨ p = (r + 1, c + 1))

/-- The active map of the L-shaped triple at (r,c), (r,c+1),
(r+1,c+1). -/
def lShapeActive (r c : Nat) : Cell → Bool :=
  fun p => decide (p = (r, c) ∨ p = (r, c + 1) ∨ p = (r + 1, c + 1))

/-- Helper: 4-adjacency of explicit pairs, unfolded. -/
theorem adj4_mk (a b x y : Nat) :
    adj4 (a, b) (x, y) ↔
      ((a = x ∧ (b + 1 = y ∨ y + 1 = b)) ∨ (b = y ∧ (a + 1 = x ∨ x + 1 = a))) :=
  Iff.rfl

/-- C3: one labeling pass of GridPartitionedSet partitions the active
pixels into exactly the 4-connected components: two active in-grid
pixels receive the same label if and only if they are connected through
4-adjacent active pixels; in particular a pair of pixels adjacent only
diagonally receives two distinct labels (two one-pixel clusters), and an
L-shaped triple at (r,c), (r,c+1), (r+1,c+1) receives a single common
label (one 3-pixel cluster). -/
theorem gridPartitionedSet_partition :
    (∀ (rows cols : Nat) (active : Cell → Bool) (p q : Cell),
      active p = true → active q = true →
      inGrid rows cols p → inGrid rows cols q →
      ((hkPass active rows cols).label p = (hkPass active rows cols).label q ↔
        hkConnected active rows cols p q)) ∧
    (∀ rows cols r c : Nat, r + 1 < rows → c + 1 < cols →
      (hkPass (diagActive r c) rows cols).label (r, c) ≠
        (hkPass (diagActive r c) rows cols).label (r + 1, c + 1)) ∧
    (∀ rows cols r c : Nat, r + 1 < rows → c + 1 < cols →
      (hkPass (lShapeActive r c) rows cols).label (r, c) =
          (hkPass (lShapeActive r c) rows cols).label (r, c + 1) ∧
        (hkPass (lShapeActive r c) rows cols).label (r, c + 1) =
          (hkPass (lShapeActive r c) rows cols).label (r + 1, c + 1)) := by
  refine ⟨?_, ?_, ?_⟩
  · intro rows cols active p q hap haq hgp hgq
    exact hk_partition_iff rows cols active p q hap haq hgp hgq
  · intro rows cols r c h1 h2 heq
    have hact1 : diagActive r c (r, c) = true := by simp [diagActive]
    have hact2 : diagActive r c (r + 1, c + 1) = true := by simp [diagActive]
    have hg1 : inGrid rows cols (r, c) := ⟨by omega, by omega⟩
    have hg2 : inGrid rows cols (r + 1, c + 1) := ⟨h1, h2⟩
    have hconn := (hk_partition_iff rows cols (diagActive r c) (r, c) (r + 1, c + 1)
      hact1 hact2 hg1 hg2).mp heq
    have hemp : ∀ a b : Cell, ¬activeAdj (diagActive r c) rows cols a b := by
      rintro a b ⟨haa, hab, -, -, hadj⟩
      have ha2 : a = (r, c) ∨ a = (r + 1, c + 1) := by
        simpa [diagActive] using haa
      have hb2 : b = (r, c) ∨ b = (r + 1, c + 1) := by
        simpa [diagActive] using hab
      rcases ha2 with rfl | rfl <;> rcases hb2 with rfl | rfl <;>
        rw [adj4_mk] at hadj <;> omega
    have heqc := eqvGen_eq_of_empty _ hemp _ _ hconn
    simp only [Prod.mk.injEq] at heqc
    omega
  · intro rows cols r c h1 h2
    have hactA : lShapeActive r c (r, c) = true := by simp [lShapeActive]
    have hactB : lShapeActive r c (r, c + 1) = true := by simp [lShapeActive]
    have hactC : lShapeActive r c (r + 1, c + 1) = true := by simp [lShapeActive]
    have hgA : inGrid rows cols (r, c) := ⟨by omega, by omega⟩
    have hgB : inGrid rows cols (r, c + 1) := ⟨by omega, h2⟩
    have hgC : inGrid rows cols (r + 1, c + 1) := ⟨h1, h2⟩
    have edge1 : activeAdj (lShapeActive r c) rows cols (r, c) (r, c + 1) :=
      ⟨hactA, hactB, hgA, hgB, Or.inl ⟨rfl, Or.inl rfl⟩⟩
    have edge2 : activeAdj (lShapeActive r c) rows cols (r, c + 1) (r + 1, c + 1) :=
      ⟨hactB, hactC, hgB, hgC, Or.inr ⟨rfl, Or.inl rfl⟩⟩
    constructor
    · exact (hk_partition_iff rows cols (lShapeActive r c) (r, c) (r, c + 1)
        hactA hactB hgA hgB).mpr (Relation.EqvGen.rel _ _ edge1)
    · exact (hk_partition_iff rows cols (lShapeActive r c) (r, c + 1) (r + 1, c + 1)
        hactB hactC hgB hgC).mpr (Relation.EqvGen.rel _ _ edge2)

/-- C3 witness: on a 2x2 grid, the theorem instantiated at r = 0, c = 0:
the diagonal pair gets distinct labels, the L-shaped triple a common
one. -/
theorem gridPartitionedSet_partition_witness :
    0 + 1 < 2 ∧ 0 + 1 < 2 ∧
      ((hkPass (diagActive 0 0) 2 2).label (0, 0) ≠
          (hkPass (diagActive 0 0) 2 2).label (0 + 1, 0 + 1)) ∧
      ((hkPass (lShapeActive 0 0) 2 2).label (0, 0) =
          (hkPass (lShapeActive 0 0) 2 2).label (0, 0 + 1) ∧
        (hkPass (lShapeActive 0 0) 2 2).label (0, 0 + 1) =
          (hkPass (lShapeActive 0 0) 2 2).label (0 + 1, 0 + 1)) :=
  ⟨by decide, by decide,
    gridPartitionedSet_partition.2.1 2 2 0 0 (by decide) (by decide),
    gridPartitionedSet_partition.2.2 2 2 0 0 (by decide) (by decide)⟩

/- ************************************************************************
   ClusterHeap modelled from the spec (its implementation file
   HKBaseSensor.cc is not part of the source tree; the header declares
   ClusterItem, ClusterTable, ReferenceTable and the operations)
   ************************************************************************ -/

/-- From the header HKBaseSensor.h: a member pixel of a cluster with its
charge (struct ChargePoint). -/
structure ChargePoint where
  row : Nat
  col : Nat
  charge : ℚ
deriving DecidableEq

/-- Modelled from the spec: a durable cluster item (header structs
BufferedCluster/ClusterItem flattened): member pixels with charge, the
cluster time, and the member count. -/
structure ClusterItem where
  pixels : List ChargePoint
  time : ℚ
  size : Nat
deriving DecidableEq

/-- Modelled from the spec: the state of a ClusterHeap: the fresh-id
counter hash_cnt, the open-cluster table (id to item) and the reference
table (pixel linear position to owning cluster id), both association
lists standing for the header's unordered maps. -/
structure ClusterHeapState where
  hash_cnt : Nat
  cluster_table : List (Nat × ClusterItem)
  ref_table : List (Nat × Nat)
deriving DecidableEq

/-- Association-list lookup: the first binding of the key, if any. -/
def alookup {β : Type} : List (Nat × β) → Nat → Option β
  | [], _ => none
  | (k2, v) :: rest, k => if k2 = k then some v else alookup rest k

/-- Association-list removal of a set of keys. -/
def aremove {β : Type} (l : List (Nat × β)) (ks : List Nat) : List (Nat × β) :=
  l.filter (fun kv => decide (kv.1 ∉ ks))

/-- The empty cluster heap. -/
def initHeap : ClusterHeapState :=
  { hash_cnt := 0, cluster_table := [], ref_table := [] }

/-- The member pixel the heap stores for a linear position: grid
coordinates through the GridPosition decomposition, charge not yet
attached. -/
def chargePointOf (cols pos : Nat) : ChargePoint :=
  { row := pos / cols, col := pos % cols, charge := 0 }

/-- The linear positions of an item's member pixels. -/
def itemPositions (cols : Nat) (it : ClusterItem) : List Nat :=
  it.pixels.map (fun cp => cp.row * cols + cp.col)

/-- Modelled from the spec: the open cluster ids that share a member
pixel with an incoming cluster, through the reference table. -/
def touchedIds (s : ClusterHeapState) (cluster : List Nat) : List Nat :=
  (cluster.filterMap (alookup s.ref_table)).dedup

/-- The open items of the touched ids. -/
def touchedItems (s : ClusterHeapState) (cluster : List Nat) : List ClusterItem :=
  (touchedIds s cluster).filterMap (alookup s.cluster_table)

/-- A freshly allocated cluster item for an incoming cluster. -/
def freshItem (cols : Nat) (cluster : List Nat) (t : ℚ) : ClusterItem :=
  { pixels := cluster.map (chargePointOf cols), time := t, size := cluster.length }

/-- The merged item absorbing the touched items and the incoming
cluster: membership is the union, the time is the earliest seen. -/
def mergedItem (cols : Nat) (s : ClusterHeapState) (cluster : List Nat) (t : ℚ) : ClusterItem :=
  { pixels := (touchedItems s cluster).bind ClusterItem.pixels ++
      (cluster.filter (fun pos =>
        !((touchedItems s cluster).bind ClusterItem.pixels).any
          (fun cp => decide (cp.row * cols + cp.col = pos)))).map (chargePointOf cols),
    time := ((touchedItems s cluster).map ClusterItem.time).foldr min t,
    size := ((touchedItems s cluster).bind ClusterItem.pixels ++
      (cluster.filter (fun pos =>
        !((touchedItems s cluster).bind ClusterItem.pixels).any
          (fun cp => decide (cp.row * cols + cp.col = pos)))).map (chargePointOf cols)).length }

/-- Modelled from the spec: AddCluster: if no member pixel belongs to an
open item, allocate a fresh item under the next id; otherwise merge the
incoming cluster and every touched open item into the first touched id,
with time the earliest seen; afterwards every member pixel's reference
entry points to the surviving id. -/
def AddCluster (cols : Nat) (s : ClusterHeapState) (cluster : List Nat) (t : ℚ) :
    ClusterHeapState :=
  match touchedIds s cluster with
  | [] =>
    { hash_cnt := s.hash_cnt + 1,
      cluster_table := (s.hash_cnt, freshItem cols cluster t) :: s.cluster_table,
      ref_table := cluster.map (fun pos => (pos, s.hash_cnt)) ++ aremove s.ref_table cluster }
  | surv :: rest =>
    { hash_cnt := s.hash_cnt,
      cluster_table := (surv, mergedItem cols s cluster t) ::
        aremove s.cluster_table (surv :: rest),
      ref_table := (itemPositions cols (mergedItem cols s cluster t)).dedup.map
          (fun pos => (pos, surv)) ++
        aremove s.ref_table (itemPositions cols (mergedItem cols s cluster t)) }

/-- Modelled from the spec: SetupPixel attaches the authoritative charge
to a confirmed member pixel of its open item. -/
def setCharge (it : ClusterItem) (x y : Nat) (chg : ℚ) : ClusterItem :=
  { it with pixels := it.pixels.map (fun cp =>
      if cp.row = x ∧ cp.col = y then { cp with charge := chg } else cp) }

/-- The table-entry update of SetupPixel: the owning item's pixel gets
the charge, every other entry is unchanged. -/
def setChargeEntry (x y : Nat) (chg : ℚ) (cid : Nat) (kv : Nat × ClusterItem) :
    Nat × ClusterItem :=
  if kv.1 = cid then (kv.1, setCharge kv.2 x y chg) else kv

/-- Modelled from the spec: SetupPixel: look the pixel up in the
reference table and attach the charge to it inside its item; a pixel
with no open item is ignored. -/
def SetupPixel (cols : Nat) (s : ClusterHeapState) (x y : Nat) (chg : ℚ) :
    ClusterHeapState :=
  match alookup s.ref_table (x * cols + y) with
  | none => s
  | some cid =>
    { s with cluster_table := s.cluster_table.map (setChargeEntry x y chg cid) }

/-- Modelled from the spec: an item is ready when every member pixel has
left the active state in the matrix. -/
def readyItem (inact : Nat → Bool) (cols : Nat) (it : ClusterItem) : Bool :=
  it.pixels.all (fun cp => inact (cp.row * cols + cp.col))

/-- Modelled from the spec: PopClusters removes and returns every ready
item; the reference entries of popped items are dropped. -/
def PopClusters (cols : Nat) (s : ClusterHeapState) (inact : Nat → Bool) :
    List (Nat × ClusterItem) × ClusterHeapState :=
  (s.cluster_table.filter (fun kv => readyItem inact cols kv.2),
   { hash_cnt := s.hash_cnt,
     cluster_table := s.cluster_table.filter (fun kv => !readyItem inact cols kv.2),
     ref_table := s.ref_table.filter (fun e =>
       decide (e.2 ∉ (s.cluster_table.filter
         (fun kv => readyItem inact cols kv.2)).map Prod.fst)) })

/-- Modelled from the spec: the states a ClusterHeap can reach from the
empty heap through its operations; incoming clusters carry distinct
positions, as one labeling pass produces them. -/
inductive HeapReachable (cols : Nat) : ClusterHeapState → Prop where
  | init : HeapReachable cols initHeap
  | add (s : ClusterHeapState) (cluster : List Nat) (t : ℚ)
      (h : HeapReachable cols s) (hnd : cluster.Nodup) :
      HeapReachable cols (AddCluster cols s cluster t)
  | setup (s : ClusterHeapState) (x y : Nat) (chg : ℚ) (h : HeapReachable cols s) :
      HeapReachable cols (SetupPixel cols s x y chg)
  | pop (s : ClusterHeapState) (inact : Nat → Bool) (h : HeapReachable cols s) :
      HeapReachable cols (PopClusters cols s inact).2

/-- The heap invariant: reference keys are unduplicated, table ids are
unduplicated, every reference entry points to an open item owning that
pixel, and every open id is below the fresh-id counter. -/
def HeapInv (cols : Nat) (s : ClusterHeapState) : Prop :=
  (s.ref_table.map Prod.fst).Nodup ∧
  (s.cluster_table.map Prod.fst).Nodup ∧
  (∀ pos cid, alookup s.ref_table pos = some cid →
    ∃ it, alookup s.cluster_table cid = some it ∧ pos ∈ itemPositions cols it) ∧
  (∀ cid it, alookup s.cluster_table cid = some it → cid < s.hash_cnt)

/-- Helper: a successful lookup is a member binding. -/
theorem alookup_mem {β : Type} (l : List (Nat × β)) (k : Nat) (v : β)
    (h : alookup l k = some v) : (k, v) ∈ l := by
  induction l with
  | nil => exact absurd h (by simp [alookup])
  | cons kv rest ih =>
    rw [show alookup (kv :: rest) k = if kv.1 = k then some kv.2 else alookup rest k from rfl] at h
    by_cases hk : kv.1 = k
    · rw [if_pos hk] at h
      injection h with h2
      exact List.mem_cons.mpr (Or.inl (Prod.ext hk h2).symm)
    · rw [if_neg hk] at h
      exact List.mem_cons_of_mem kv (ih h)

/-- Helper: lookup fails exactly off the key set. -/
theorem alookup_eq_none {β : Type} (l : List (Nat × β)) (k : Nat) :
    alookup l k = none ↔ k ∉ l.map Prod.fst := by
  induction l with
  | nil => simp [alookup]
  | cons kv rest ih =>
    rw [show alookup (kv :: rest) k = if kv.1 = k then some kv.2 else alookup rest k from rfl]
    by_cases hk : kv.1 = k
    · rw [if_pos hk]
      simp [hk]
    · rw [if_neg hk]
      simp only [List.map_cons, List.mem_cons]
      rw [ih]
      constructor
      · intro h hmem
        rcases hmem with h2 | h2
        · exact hk h2.symm
        · exact h h2
      · intro h
        exact fun h2 => h (Or.inr h2)

/-- Helper: with unduplicated keys a member binding is the lookup
result. -/
theorem alookup_of_mem_nodup {β : Type} (l : List (Nat × β)) (k : Nat) (v : β)
    (hnd : (l.map Prod.fst).Nodup) (h : (k, v) ∈ l) : alookup l k = some v := by
  induction l with
  | nil => exact absurd h (by simp)
  | cons kv rest ih =>
    rw [show alookup (kv :: rest) k = if kv.1 = k then some kv.2 else alookup rest k from rfl]
    rcases List.mem_cons.mp h with h2 | h2
    · rw [← h2]
      simp
    · have hk : kv.1 ≠ k := by
        intro he
        have hmem : k ∈ rest.map Prod.fst := List.mem_map.mpr ⟨(k, v), h2, rfl⟩
        rw [List.map_cons] at hnd
        exact (List.nodup_cons.mp hnd).1 (he ▸ hmem)
      rw [if_neg hk]
      exact ih (List.nodup_cons.mp (by rw [List.map_cons] at hnd; exact hnd)).2 h2

/-- Helper: lookup in a constant-value map hits any listed key. -/
theorem alookup_map_const (ps : List Nat) (cid k : Nat) (h : k ∈ ps) :
    alookup (ps.map (fun p => (p, cid))) k = some cid := by
  induction ps with
  | nil => exact absurd h (by simp)
  | cons p rest ih =>
    rw [List.map_cons]
    rw [show alookup ((p, cid) :: rest.map (fun p => (p, cid))) k =
      if p = k then some cid else alookup (rest.map (fun p => (p, cid))) k from rfl]
    by_cases hp : p = k
    · rw [if_pos hp]
    · rw [if_neg hp]
      exact ih ((List.mem_cons.mp h).resolve_left (fun he => hp he.symm))

/-- Helper: lookup in a constant-value map misses any unlisted key. -/
theorem alookup_map_const_none (ps : List Nat) (cid k : Nat) (h : k ∉ ps) :
    alookup (ps.map (fun p => (p, cid))) k = none := by
  rw [alookup_eq_none]
  intro hmem
  rcases List.mem_map.mp hmem with ⟨e, he, hfst⟩
  rcases List.mem_map.mp he with ⟨p, hp, rfl⟩
  have hpk : p = k := hfst
  exact h (hpk ▸ hp)

/-- Helper: lookup distributes over append, left first. -/
theorem alookup_append_some {β : Type} (l1 l2 : List (Nat × β)) (k : Nat) (v : β)
    (h : alookup l1 k = some v) : alookup (l1 ++ l2) k = some v := by
  induction l1 with
  | nil => exact absurd h (by simp [alookup])
  | cons kv rest ih =>
    rw [List.cons_append]
    rw [show alookup (kv :: rest) k = if kv.1 = k then some kv.2 else alookup rest k from rfl] at h
    rw [show alookup (kv :: (rest ++ l2)) k =
      if kv.1 = k then some kv.2 else alookup (rest ++ l2) k from rfl]
    by_cases hk : kv.1 = k
    · rw [if_pos hk] at h ⊢
      exact h
    · rw [if_neg hk] at h ⊢
      exact ih h

/-- Helper: lookup falls through an append when the left part misses. -/
theorem alookup_append_none {β : Type} (l1 l2 : List (Nat × β)) (k : Nat)
    (h : alookup l1 k = none) : alookup (l1 ++ l2) k = alookup l2 k := by
  induction l1 with
  | nil => rfl
  | cons kv rest ih =>
    rw [List.cons_append]
    rw [show alookup (kv :: rest) k = if kv.1 = k then some kv.2 else alookup rest k from rfl] at h
    rw [show alookup (kv :: (rest ++ l2)) k =
      if kv.1 = k then some kv.2 else alookup (rest ++ l2) k from rfl]
    by_cases hk : kv.1 = k
    · rw [if_pos hk] at h
      exact absurd h (by simp)
    · rw [if_neg hk] at h ⊢
      exact ih h

/-- Helper: removal leaves lookups of unremoved keys unchanged. -/
theorem alookup_aremove_not_mem {β : Type} (l : List (Nat × β)) (ks : List Nat) (k : Nat)
    (h : k ∉ ks) : alookup (aremove l ks) k = alookup l k := by
  induction l with
  | nil => rfl
  | cons kv rest ih =>
    unfold aremove at ih ⊢
    rw [show alookup (kv :: rest) k = if kv.1 = k then some kv.2 else alookup rest k from rfl]
    by_cases hkeep : kv.1 ∉ ks
    · rw [List.filter_cons_of_pos (by simpa using hkeep)]
      rw [show alookup (kv :: List.filter (fun kv => decide (kv.1 ∉ ks)) rest) k =
        if kv.1 = k then some kv.2 else
          alookup (List.filter (fun kv => decide (kv.1 ∉ ks)) rest) k from rfl]
      by_cases hk : kv.1 = k
      · rw [if_pos hk, if_pos hk]
      · rw [if_neg hk, if_neg hk]
        exact ih
    · rw [List.filter_cons_of_neg (by simpa using hkeep)]
      have hk : kv.1 ≠ k := by
        intro he
        exact hkeep (by rw [he]; exact fun hm => h hm)
      rw [if_neg hk]
      exact ih

/-- Helper: removal erases lookups of removed keys. -/
theorem alookup_aremove_mem {β : Type} (l : List (Nat × β)) (ks : List Nat) (k : Nat)
    (h : k ∈ ks) : alookup (aremove l ks) k = none := by
  rw [alookup_eq_none]
  intro hmem
  rcases List.mem_map.mp hmem with ⟨kv, hkv, hfst⟩
  have := List.of_mem_filter hkv
  rw [hfst] at this
  simp only [decide_eq_true_eq] at this
  exact this h

/-- Helper: the keys of a removal are the surviving keys. -/
theorem aremove_keys {β : Type} (l : List (Nat × β)) (ks : List Nat) :
    (aremove l ks).map Prod.fst = (l.map Prod.fst).filter (fun k => decide (k ∉ ks)) := by
  induction l with
  | nil => rfl
  | cons kv rest ih =>
    unfold aremove at ih ⊢
    by_cases hkeep : kv.1 ∉ ks
    · rw [List.filter_cons_of_pos (by simpa using hkeep), List.map_cons, List.map_cons,
        List.filter_cons_of_pos (by simpa using hkeep), ih]
    · rw [List.filter_cons_of_neg (by simpa using hkeep), List.map_cons,
        List.filter_cons_of_neg (by simpa using hkeep), ih]

/-- Helper: filtering keeps the lookup of a binding the filter keeps. -/
theorem alookup_filter_of_pos {β : Type} (l : List (Nat × β)) (pred : Nat × β → Bool)
    (k : Nat) (v : β) (h : alookup l k = some v) (hp : pred (k, v) = true) :
    alookup (l.filter pred) k = some v := by
  induction l with
  | nil => exact absurd h (by simp [alookup])
  | cons kv rest ih =>
    rw [show alookup (kv :: rest) k = if kv.1 = k then some kv.2 else alookup rest k from rfl] at h
    by_cases hk : kv.1 = k
    · rw [if_pos hk] at h
      injection h with h2
      have hkv : kv = (k, v) := by
        rw [← hk, ← h2]
      rw [List.filter_cons_of_pos (by rw [hkv]; exact hp)]
      rw [show alookup (kv :: rest.filter pred) k =
        if kv.1 = k then some kv.2 else alookup (rest.filter pred) k from rfl]
      rw [if_pos hk, h2]
    · rw [if_neg hk] at h
      by_cases hkeep : pred kv = true
      · rw [List.filter_cons_of_pos hkeep]
        rw [show alookup (kv :: rest.filter pred) k =
          if kv.1 = k then some kv.2 else alookup (rest.filter pred) k from rfl]
        rw [if_neg hk]
        exact ih h
      · rw [List.filter_cons_of_neg (by simpa using hkeep)]
        exact ih h

/-- Helper: mapping one entry's value through a function keeps all
keys. -/
theorem mapEntry_keys {β : Type} (l : List (Nat × β)) (cid : Nat) (f : β → β) :
    ((l.map (fun kv => if kv.1 = cid then (kv.1, f kv.2) else kv)).map Prod.fst) =
      l.map Prod.fst := by
  rw [List.map_map]
  apply List.map_congr_left
  intro kv _
  by_cases hk : kv.1 = cid
  · simp [hk]
  · simp [hk]

/-- Helper: mapping one entry's value changes only that key's lookup. -/
theorem alookup_mapEntry {β : Type} (l : List (Nat × β)) (cid : Nat) (f : β → β) (k : Nat) :
    alookup (l.map (fun kv => if kv.1 = cid then (kv.1, f kv.2) else kv)) k =
      if k = cid then (alookup l k).map f else alookup l k := by
  induction l with
  | nil => simp [alookup]
  | cons kv rest ih =>
    rw [List.map_cons]
    by_cases hk : kv.1 = k
    · by_cases hc : kv.1 = cid
      · rw [if_pos hc]
        rw [show alookup ((kv.1, f kv.2) ::
          rest.map (fun kv => if kv.1 = cid then (kv.1, f kv.2) else kv)) k =
          if kv.1 = k then some (f kv.2) else
            alookup (rest.map (fun kv => if kv.1 = cid then (kv.1, f kv.2) else kv)) k from rfl]
        rw [if_pos hk]
        rw [show alookup (kv :: rest) k = if kv.1 = k then some kv.2 else alookup rest k from rfl]
        rw [if_pos hk]
        rw [if_pos (by rw [← hk, hc])]
        rfl
      · rw [if_neg hc]
        rw [show alookup (kv ::
          rest.map (fun kv => if kv.1 = cid then (kv.1, f kv.2) else kv)) k =
          if kv.1 = k then some kv.2 else
            alookup (rest.map (fun kv => if kv.1 = cid then (kv.1, f kv.2) else kv)) k from rfl]
        rw [if_pos hk]
        rw [show alookup (kv :: rest) k = if kv.1 = k then some kv.2 else alookup rest k from rfl]
        rw [if_pos hk]
        rw [if_neg (by rw [← hk]; exact fun he => hc he)]
    · have hstep : alookup ((if kv.1 = cid then (kv.1, f kv.2) else kv) ::
          rest.map (fun kv => if kv.1 = cid then (kv.1, f kv.2) else kv)) k =
          alookup (rest.map (fun kv => if kv.1 = cid then (kv.1, f kv.2) else kv)) k := by
        by_cases hc : kv.1 = cid
        · rw [if_pos hc]
          rw [show alookup ((kv.1, f kv.2) ::
            rest.map (fun kv => if kv.1 = cid then (kv.1, f kv.2) else kv)) k =
            if kv.1 = k then some (f kv.2) else
              alookup (rest.map (fun kv => if kv.1 = cid then (kv.1, f kv.2) else kv)) k from rfl]
          rw [if_neg hk]
        · rw [if_neg hc]
          rw [show alookup (kv ::
            rest.map (fun kv => if kv.1 = cid then (kv.1, f kv.2) else kv)) k =
            if kv.1 = k then some kv.2 else
              alookup (rest.map (fun kv => if kv.1 = cid then (kv.1, f kv.2) else kv)) k from rfl]
          rw [if_neg hk]
      rw [hstep, ih]
      rw [show alookup (kv :: rest) k = if kv.1 = k then some kv.2 else alookup rest k from rfl]
      rw [if_neg hk]

/-- Helper: a fresh item's member positions are exactly the incoming
cluster. -/
theorem freshItem_positions (cols : Nat) (hc : 0 < cols) (cluster : List Nat) (t : ℚ) :
    itemPositions cols (freshItem cols cluster t) = cluster := by
  unfold itemPositions freshItem
  rw [List.map_map]
  have h2 : List.map ((fun cp => cp.row * cols + cp.col) ∘ chargePointOf cols) cluster =
      List.map id cluster := by
    apply List.map_congr_left
    intro pos _
    show (pos / cols) * cols + pos % cols = pos
    exact cellOf_rmIdx cols pos hc
  rw [h2, List.map_id]

/-- Helper: membership in the merged item's positions is membership in
the incoming cluster or in a touched item. -/
theorem mergedItem_positions_mem (cols : Nat) (hc : 0 < cols) (s : ClusterHeapState)
    (cluster : List Nat) (t : ℚ) (pos : Nat) :
    pos ∈ itemPositions cols (mergedItem cols s cluster t) ↔
      (pos ∈ cluster ∨ ∃ it ∈ touchedItems s cluster, pos ∈ itemPositions cols it) := by
  have hA : ∀ pos2 : Nat,
      (pos2 ∈ ((touchedItems s cluster).bind ClusterItem.pixels).map
        (fun cp => cp.row * cols + cp.col)) ↔
      (∃ it ∈ touchedItems s cluster, pos2 ∈ itemPositions cols it) := by
    intro pos2
    constructor
    · intro h
      rcases List.mem_map.mp h with ⟨cp, hcp, rfl⟩
      rcases List.mem_bind.mp hcp with ⟨it, hit, hcpit⟩
      exact ⟨it, hit, List.mem_map.mpr ⟨cp, hcpit, rfl⟩⟩
    · rintro ⟨it, hit, hmem⟩
      rcases List.mem_map.mp hmem with ⟨cp, hcp, rfl⟩
      exact List.mem_map.mpr ⟨cp, List.mem_bind.mpr ⟨it, hit, hcp⟩, rfl⟩
  unfold mergedItem itemPositions
  simp only [List.map_append, List.mem_append]
  constructor
  · intro h
    rcases h with h | h
    · exact Or.inr ((hA pos).mp h)
    · rw [List.map_map] at h
      rcases List.mem_map.mp h with ⟨p2, hp2, hval⟩
      have hval2 : (p2 / cols) * cols + p2 % cols = pos := hval
      have hp2e : p2 = pos := by
        have := cellOf_rmIdx cols p2 hc
        omega
      exact Or.inl (by rw [← hp2e]; exact (List.mem_filter.mp hp2).1)
  · intro h
    by_cases hold : ∃ it ∈ touchedItems s cluster, pos ∈ itemPositions cols it
    · exact Or.inl ((hA pos).mpr hold)
    · rcases h with h | h
      · right
        rw [List.map_map]
        apply List.mem_map.mpr
        refine ⟨pos, ?_, ?_⟩
        · apply List.mem_filter.mpr
          refine ⟨h, ?_⟩
          simp only [Bool.not_eq_true', List.any_eq_true, decide_eq_true_eq,
            not_exists, Bool.not_eq_true]
          rw [List.any_eq_false]
          intro cp hcp
          simp only [decide_eq_true_eq]
          intro he
          exact hold ((hA pos).mp (List.mem_map.mpr ⟨cp, hcp, he⟩))
        · show (pos / cols) * cols + pos % cols = pos
          exact cellOf_rmIdx cols pos hc
      · exact absurd h hold

/-- Helper: a fold of min is a lower bound of its inputs. -/
theorem foldr_min_le (l : List ℚ) (t : ℚ) :
    l.foldr min t ≤ t ∧ ∀ x ∈ l, l.foldr min t ≤ x := by
  induction l with
  | nil => exact ⟨le_refl t, by intro x hx; exact absurd hx (by simp)⟩
  | cons a rest ih =>
    refine ⟨?_, ?_⟩
    · exact le_trans (min_le_right a (rest.foldr min t)) ih.1
    · intro x hx
      rcases List.mem_cons.mp hx with rfl | hx2
      · exact min_le_left x (rest.foldr min t)
      · exact le_trans (min_le_right a (rest.foldr min t)) (ih.2 x hx2)

/-- Helper: a fold of min attains one of its inputs. -/
theorem foldr_min_attained (l : List ℚ) (t : ℚ) :
    l.foldr min t = t ∨ l.foldr min t ∈ l := by
  induction l with
  | nil => exact Or.inl rfl
  | cons a rest ih =>
    show min a (rest.foldr min t) = t ∨ min a (rest.foldr min t) ∈ a :: rest
    rcases min_choice a (rest.foldr min t) with h | h
    · exact Or.inr (by rw [h]; exact List.mem_cons_self a rest)
    · rw [h]
      rcases ih with h2 | h2
      · exact Or.inl h2
      · exact Or.inr (List.mem_cons_of_mem a h2)

/-- Helper: a touched id comes from a reference entry of a cluster
member. -/
theorem touchedIds_source (s : ClusterHeapState) (cluster : List Nat) (cid : Nat)
    (h : cid ∈ touchedIds s cluster) :
    ∃ pos ∈ cluster, alookup s.ref_table pos = some cid := by
  unfold touchedIds at h
  rw [List.mem_dedup] at h
  rcases List.mem_filterMap.mp h with ⟨pos, hpos, hlook⟩
  exact ⟨pos, hpos, hlook⟩

/-- Helper: every touched id is an open item below the counter. -/
theorem touchedIds_open (cols : Nat) (s : ClusterHeapState) (cluster : List Nat)
    (hinv : HeapInv cols s) (cid : Nat) (h : cid ∈ touchedIds s cluster) :
    (∃ it, alookup s.cluster_table cid = some it) ∧ cid < s.hash_cnt := by
  rcases touchedIds_source s cluster cid h with ⟨pos, -, hlook⟩
  rcases hinv.2.2.1 pos cid hlook with ⟨it, hit, -⟩
  exact ⟨⟨it, hit⟩, hinv.2.2.2 cid it hit⟩

/-- Helper: a successful lookup's key is among the keys. -/
theorem alookup_mem_keys {β : Type} (l : List (Nat × β)) (k : Nat) (v : β)
    (h : alookup l k = some v) : k ∈ l.map Prod.fst := by
  by_contra hmem
  rw [← alookup_eq_none] at hmem
  rw [h] at hmem
  exact absurd hmem (by simp)

/-- Helper: a touched item's positions lie inside the merged item. -/
theorem touchedItem_sub_merged (cols : Nat) (hc : 0 < cols) (s : ClusterHeapState)
    (cluster : List Nat) (t : ℚ) (it : ClusterItem) (hit : it ∈ touchedItems s cluster)
    (pos : Nat) (hpos : pos ∈ itemPositions cols it) :
    pos ∈ itemPositions cols (mergedItem cols s cluster t) :=
  (mergedItem_positions_mem cols hc s cluster t pos).mpr (Or.inr ⟨it, hit, hpos⟩)

/-- Helper: AddCluster preserves the heap invariant. -/
theorem addCluster_inv (cols : Nat) (hc : 0 < cols) (s : ClusterHeapState)
    (cluster : List Nat) (t : ℚ) (hinv : HeapInv cols s) (hnd : cluster.Nodup) :
    HeapInv cols (AddCluster cols s cluster t) := by
  obtain ⟨ha, hcN, hb, hd⟩ := hinv
  cases htch : touchedIds s cluster with
  | nil =>
    have hss : AddCluster cols s cluster t =
        { hash_cnt := s.hash_cnt + 1,
          cluster_table := (s.hash_cnt, freshItem cols cluster t) :: s.cluster_table,
          ref_table := cluster.map (fun pos => (pos, s.hash_cnt)) ++
            aremove s.ref_table cluster } := by
      unfold AddCluster
      rw [htch]
    rw [hss]
    have hkeys : (cluster.map (fun pos => (pos, s.hash_cnt)) ++
        aremove s.ref_table cluster).map Prod.fst =
        cluster ++ (s.ref_table.map Prod.fst).filter (fun k => decide (k ∉ cluster)) := by
      rw [List.map_append, aremove_keys, List.map_map]
      have h2 : List.map (Prod.fst ∘ fun pos => (pos, s.hash_cnt)) cluster =
          List.map id cluster := List.map_congr_left (fun pos _ => rfl)
      rw [h2, List.map_id]
    refine ⟨?_, ?_, ?_, ?_⟩
    · show (_ : List (Nat × Nat)).map Prod.fst |>.Nodup
      rw [hkeys]
      apply List.Nodup.append hnd
      · exact List.Nodup.sublist (List.filter_sublist _) ha
      · intro k hk hk2
        have := List.of_mem_filter hk2
        simp only [decide_eq_true_eq] at this
        exact this hk
    · show (_ :: s.cluster_table).map Prod.fst |>.Nodup
      rw [List.map_cons]
      apply List.nodup_cons.mpr
      refine ⟨?_, hcN⟩
      intro hmem
      rcases List.mem_map.mp hmem with ⟨kv, hkv, hfst⟩
      have hlook := alookup_of_mem_nodup s.cluster_table s.hash_cnt kv.2 hcN
        (by rw [show (s.hash_cnt, kv.2) = kv from Prod.ext hfst.symm rfl]; exact hkv)
      exact absurd (hd s.hash_cnt kv.2 hlook) (lt_irrefl _)
    · intro pos cid hlook
      by_cases hpc : pos ∈ cluster
      · have hpre := alookup_map_const cluster s.hash_cnt pos hpc
        rw [alookup_append_some _ _ _ _ hpre] at hlook
        injection hlook with h2
        refine ⟨freshItem cols cluster t, ?_, ?_⟩
        · show (if s.hash_cnt = cid then some (freshItem cols cluster t) else
            alookup s.cluster_table cid) = some (freshItem cols cluster t)
          rw [if_pos h2]
        · rw [freshItem_positions cols hc cluster t]
          exact hpc
      · have hpre := alookup_map_const_none cluster s.hash_cnt pos hpc
        rw [alookup_append_none _ _ _ hpre, alookup_aremove_not_mem _ _ _ hpc] at hlook
        rcases hb pos cid hlook with ⟨it, hit, hmem⟩
        have hne : s.hash_cnt ≠ cid := by
          intro he
          exact absurd (he ▸ hd cid it hit) (lt_irrefl _)
        refine ⟨it, ?_, hmem⟩
        show (if s.hash_cnt = cid then some (freshItem cols cluster t) else
          alookup s.cluster_table cid) = some it
        rw [if_neg hne]
        exact hit
    · intro cid it hlook
      have hlook2 : (if s.hash_cnt = cid then some (freshItem cols cluster t) else
          alookup s.cluster_table cid) = some it := hlook
      by_cases he : s.hash_cnt = cid
      · show cid < s.hash_cnt + 1
        omega
      · rw [if_neg he] at hlook2
        have := hd cid it hlook2
        show cid < s.hash_cnt + 1
        omega
  | cons surv rest =>
    have hsurvT : surv ∈ touchedIds s cluster := by
      rw [htch]
      exact List.mem_cons_self surv rest
    have hsurvlt : surv < s.hash_cnt :=
      (touchedIds_open cols s cluster ⟨ha, hcN, hb, hd⟩ surv hsurvT).2
    have hss : AddCluster cols s cluster t =
        { hash_cnt := s.hash_cnt,
          cluster_table := (surv, mergedItem cols s cluster t) ::
            aremove s.cluster_table (surv :: rest),
          ref_table := (itemPositions cols (mergedItem cols s cluster t)).dedup.map
              (fun pos => (pos, surv)) ++
            aremove s.ref_table (itemPositions cols (mergedItem cols s cluster t)) } := by
      unfold AddCluster
      rw [htch]
    rw [hss]
    have hkeys : ((itemPositions cols (mergedItem cols s cluster t)).dedup.map
        (fun pos => (pos, surv)) ++
        aremove s.ref_table (itemPositions cols (mergedItem cols s cluster t))).map Prod.fst =
        (itemPositions cols (mergedItem cols s cluster t)).dedup ++
          (s.ref_table.map Prod.fst).filter
            (fun k => decide (k ∉ itemPositions cols (mergedItem cols s cluster t))) := by
      rw [List.map_append, aremove_keys, List.map_map]
      have h2 : List.map (Prod.fst ∘ fun pos => (pos, surv))
          (itemPositions cols (mergedItem cols s cluster t)).dedup =
          List.map id (itemPositions cols (mergedItem cols s cluster t)).dedup :=
        List.map_congr_left (fun pos _ => rfl)
      rw [h2, List.map_id]
    refine ⟨?_, ?_, ?_, ?_⟩
    · show (_ : List (Nat × Nat)).map Prod.fst |>.Nodup
      rw [hkeys]
      apply List.Nodup.append (List.nodup_dedup _)
      · exact List.Nodup.sublist (List.filter_sublist _) ha
      · intro k hk hk2
        have := List.of_mem_filter hk2
        simp only [decide_eq_true_eq] at this
        exact this (List.mem_dedup.mp hk)
    · show (_ :: aremove s.cluster_table (surv :: rest)).map Prod.fst |>.Nodup
      rw [List.map_cons]
      apply List.nodup_cons.mpr
      constructor
      · intro hmem
        rw [aremove_keys] at hmem
        have := List.of_mem_filter hmem
        simp only [decide_eq_true_eq] at this
        exact this (List.mem_cons_self surv rest)
      · rw [aremove_keys]
        exact List.Nodup.sublist (List.filter_sublist _) hcN
    · intro pos cid hlook
      by_cases hpc : pos ∈ itemPositions cols (mergedItem cols s cluster t)
      · have hpre := alookup_map_const
          (itemPositions cols (mergedItem cols s cluster t)).dedup surv pos
          (List.mem_dedup.mpr hpc)
        rw [alookup_append_some _ _ _ _ hpre] at hlook
        injection hlook with h2
        refine ⟨mergedItem cols s cluster t, ?_, hpc⟩
        show (if surv = cid then some (mergedItem cols s cluster t) else
          alookup (aremove s.cluster_table (surv :: rest)) cid) =
            some (mergedItem cols s cluster t)
        rw [if_pos h2]
      · have hpre := alookup_map_const_none
          (itemPositions cols (mergedItem cols s cluster t)).dedup surv pos
          (fun h => hpc (List.mem_dedup.mp h))
        rw [alookup_append_none _ _ _ hpre, alookup_aremove_not_mem _ _ _ hpc] at hlook
        rcases hb pos cid hlook with ⟨it, hit, hmem⟩
        have hcid_untouched : cid ∉ surv :: rest := by
          intro hct
          have hctch : cid ∈ touchedIds s cluster := by
            rw [htch]
            exact hct
          have hitT : it ∈ touchedItems s cluster :=
            List.mem_filterMap.mpr ⟨cid, hctch, hit⟩
          exact hpc (touchedItem_sub_merged cols hc s cluster t it hitT pos hmem)
        have hne : surv ≠ cid := by
          intro he
          exact hcid_untouched (he ▸ List.mem_cons_self surv rest)
        refine ⟨it, ?_, hmem⟩
        show (if surv = cid then some (mergedItem cols s cluster t) else
          alookup (aremove s.cluster_table (surv :: rest)) cid) = some it
        rw [if_neg hne, alookup_aremove_not_mem _ _ _ hcid_untouched]
        exact hit
    · intro cid it hlook
      have hlook2 : (if surv = cid then some (mergedItem cols s cluster t) else
          alookup (aremove s.cluster_table (surv :: rest)) cid) = some it := hlook
      by_cases he : surv = cid
      · show cid < s.hash_cnt
        omega
      · rw [if_neg he] at hlook2
        have hmemk := alookup_mem_keys _ _ _ hlook2
        rw [aremove_keys] at hmemk
        have hkn := List.of_mem_filter hmemk
        simp only [decide_eq_true_eq] at hkn
        rw [alookup_aremove_not_mem _ _ _ hkn] at hlook2
        exact hd cid it hlook2

/-- Helper: SetupPixel preserves member positions of an item. -/
theorem setCharge_positions (cols : Nat) (it : ClusterItem) (x y : Nat) (chg : ℚ) :
    itemPositions cols (setCharge it x y chg) = itemPositions cols it := by
  unfold itemPositions setCharge
  rw [List.map_map]
  apply List.map_congr_left
  intro cp _
  by_cases h : cp.row = x ∧ cp.col = y
  · simp only [Function.comp]
    rw [if_pos h]
  · simp only [Function.comp]
    rw [if_neg h]

/-- Helper: the SetupPixel entry update keeps all keys. -/
theorem setChargeEntry_keys (l : List (Nat × ClusterItem)) (x y : Nat) (chg : ℚ)
    (cid : Nat) :
    ((l.map (setChargeEntry x y chg cid)).map Prod.fst) = l.map Prod.fst :=
  mapEntry_keys l cid (fun v => setCharge v x y chg)

/-- Helper: the SetupPixel entry update changes only the owning id's
lookup. -/
theorem alookup_setChargeEntry (l : List (Nat × ClusterItem)) (x y : Nat) (chg : ℚ)
    (cid k : Nat) :
    alookup (l.map (setChargeEntry x y chg cid)) k =
      if k = cid then (alookup l k).map (fun v => setCharge v x y chg)
      else alookup l k :=
  alookup_mapEntry l cid (fun v => setCharge v x y chg) k

/-- Helper: SetupPixel preserves the heap invariant. -/
theorem setupPixel_inv (cols : Nat) (s : ClusterHeapState) (x y : Nat) (chg : ℚ)
    (hinv : HeapInv cols s) : HeapInv cols (SetupPixel cols s x y chg) := by
  obtain ⟨ha, hcN, hb, hd⟩ := hinv
  cases href : alookup s.ref_table (x * cols + y) with
  | none =>
    have hss : SetupPixel cols s x y chg = s := by
      unfold SetupPixel
      rw [href]
    rw [hss]
    exact ⟨ha, hcN, hb, hd⟩
  | some cid0 =>
    have htab : (SetupPixel cols s x y chg).cluster_table =
        s.cluster_table.map (setChargeEntry x y chg cid0) := by
      unfold SetupPixel
      rw [href]
    have href2 : (SetupPixel cols s x y chg).ref_table = s.ref_table := by
      unfold SetupPixel
      rw [href]
    have hhash : (SetupPixel cols s x y chg).hash_cnt = s.hash_cnt := by
      unfold SetupPixel
      rw [href]
    refine ⟨?_, ?_, ?_, ?_⟩
    · rw [href2]
      exact ha
    · rw [htab, setChargeEntry_keys]
      exact hcN
    · intro pos cid hlook
      rw [href2] at hlook
      rcases hb pos cid hlook with ⟨it, hit, hmem⟩
      rw [htab, alookup_setChargeEntry]
      by_cases he : cid = cid0
      · rw [if_pos he]
        refine ⟨setCharge it x y chg, ?_, ?_⟩
        · rw [hit]
          rfl
        · rw [setCharge_positions]
          exact hmem
      · rw [if_neg he]
        exact ⟨it, hit, hmem⟩
    · intro cid it hlook
      rw [htab, alookup_setChargeEntry] at hlook
      rw [hhash]
      by_cases he : cid = cid0
      · rw [if_pos he] at hlook
        cases hlook2 : alookup s.cluster_table cid with
        | none =>
          rw [hlook2] at hlook
          exact absurd hlook (by simp)
        | some it0 =>
          exact hd cid it0 hlook2
      · rw [if_neg he] at hlook
        exact hd cid it hlook

/-- Helper: PopClusters preserves the heap invariant. -/
theorem popClusters_inv (cols : Nat) (s : ClusterHeapState) (inact : Nat → Bool)
    (hinv : HeapInv cols s) : HeapInv cols (PopClusters cols s inact).2 := by
  obtain ⟨ha, hcN, hb, hd⟩ := hinv
  refine ⟨?_, ?_, ?_, ?_⟩
  · show ((s.ref_table.filter _).map Prod.fst).Nodup
    exact List.Nodup.sublist (List.Sublist.map _ (List.filter_sublist _)) ha
  · show ((s.cluster_table.filter _).map Prod.fst).Nodup
    exact List.Nodup.sublist (List.Sublist.map _ (List.filter_sublist _)) hcN
  · intro pos cid hlook
    have hmem := alookup_mem _ _ _ hlook
    have hkept := List.of_mem_filter hmem
    simp only [decide_eq_true_eq] at hkept
    have hmem2 := List.mem_of_mem_filter hmem
    have hlookup0 : alookup s.ref_table pos = some cid :=
      alookup_of_mem_nodup s.ref_table pos cid ha hmem2
    rcases hb pos cid hlookup0 with ⟨it, hit, hpm⟩
    have hnready : readyItem inact cols it = false := by
      by_contra hready
      rw [Bool.not_eq_false] at hready
      apply hkept
      apply List.mem_map.mpr
      exact ⟨(cid, it), List.mem_filter.mpr ⟨alookup_mem _ _ _ hit, hready⟩, rfl⟩
    refine ⟨it, ?_, hpm⟩
    apply alookup_filter_of_pos _ _ _ _ hit
    simp only [hnready]
    rfl
  · intro cid it hlook
    have hmem := alookup_mem _ _ _ hlook
    have hmem2 := List.mem_of_mem_filter hmem
    exact hd cid it (alookup_of_mem_nodup s.cluster_table cid it hcN hmem2)

/-- Helper: every reachable heap state satisfies the invariant. -/
theorem heapReachable_inv (cols : Nat) (hc : 0 < cols) (s : ClusterHeapState)
    (h : HeapReachable cols s) : HeapInv cols s := by
  induction h with
  | init =>
    refine ⟨List.nodup_nil, List.nodup_nil, ?_, ?_⟩
    · intro pos cid hlook
      exact absurd hlook (by simp [alookup])
    · intro cid it hlook
      exact absurd hlook (by simp [alookup])
  | add s2 cluster t _ hnd ih => exact addCluster_inv cols hc s2 cluster t ih hnd
  | setup s2 x y chg _ ih => exact setupPixel_inv cols s2 x y chg ih
  | pop s2 inact _ ih => exact popClusters_inv cols s2 inact ih

/- ************************************************************************
   HKBaseSensor orchestration modelled from the spec (tick cycle:
   ingest, clock-sync, label, feed the heap, pop)
   ************************************************************************ -/

/-- Modelled from the spec: UpdatePixel accumulates charge on one pixel
of the matrix, addressed by linear position; positions outside the array
are ignored. -/
def UpdatePixelM (m : MatrixState) (pos : Nat) (chrg : ℚ) : MatrixState :=
  match m.pixels[pos]? with
  | none => m
  | some p => { m with pixels := m.pixels.set pos { p with charge := p.charge + chrg } }

/-- The active map the labeling pass reads from a matrix: a cell is
active when its pixel holds nonzero charge. -/
def activeMap (cols : Nat) (m : MatrixState) : Cell → Bool :=
  fun cell =>
    match m.pixels[cell.1 * cols + cell.2]? with
    | none => false
    | some p => decide (p.charge ≠ 0)

/-- The inactivity predicate PopClusters reads from a matrix: a position
has left the active state when its pixel holds zero charge. -/
def inactiveAt (m : MatrixState) : Nat → Bool :=
  fun pos =>
    match m.pixels[pos]? with
    | none => true
    | some p => decide (p.charge = 0)

/-- Modelled from the spec: the clusters one labeling pass produces:
for each label in use, the row-major list of positions carrying it. -/
def clustersOfPass (rows cols : Nat) (active : Cell → Bool) : List (List Nat) :=
  ((List.range (rows * cols)).filterMap (fun pos =>
      (hkPass active rows cols).label (pos / cols, pos % cols))).dedup.map
    (fun lab => (List.range (rows * cols)).filter (fun pos =>
      decide ((hkPass active rows cols).label (pos / cols, pos % cols) = some lab)))

/-- Modelled from the spec: one tick of the HKBaseSensor cycle: ingest
the tick's charges, clock-sync the matrix, run a labeling pass over the
active pixels feeding every cluster to the heap at the current tick
time (skipped on a quiescent matrix), then pop the finished clusters. -/
def sensorTick (rows cols : Nat) (thr slope step : ℚ) (inj : List (Nat × ℚ)) (t : ℚ)
    (st : MatrixState × ClusterHeapState) :
    (MatrixState × ClusterHeapState) × List (Nat × ClusterItem) :=
  let m2 := ClockSync thr slope step
    (inj.foldl (fun mm pc => UpdatePixelM mm pc.1 pc.2) st.1)
  let s2 := if IsActive m2 then
      (clustersOfPass rows cols (activeMap cols m2)).foldl
        (fun ss cl => AddCluster cols ss cl t) st.2
    else st.2
  ((m2, (PopClusters cols s2 (inactiveAt m2)).2),
    (PopClusters cols s2 (inactiveAt m2)).1)

/-- Modelled from the spec: a run of consecutive ticks, collecting the
popped clusters in order. -/
def runTicks (rows cols : Nat) (thr slope step : ℚ) :
    List (List (Nat × ℚ) × ℚ) → MatrixState × ClusterHeapState →
    (MatrixState × ClusterHeapState) × List (Nat × ClusterItem)
  | [], st => (st, [])
  | (inj, t) :: rest, st =>
    ((runTicks rows cols thr slope step rest
        (sensorTick rows cols thr slope step inj t st).1).1,
      (sensorTick rows cols thr slope step inj t st).2 ++
        (runTicks rows cols thr slope step rest
          (sensorTick rows cols thr slope step inj t st).1).2)

/-- The temporal-reconciliation scenario: on a 1x2 ladder with threshold
200, slope 50 and unit step, pixel P (position 0) receives 150 at tick 0
and 150 at tick 1, crossing the threshold only at tick 1; its 4-neighbor
Q (position 1) receives 250 at tick 0 and is over threshold only at
tick 0; four more quiet ticks let both decay to zero. -/
def scenTicks : List (List (Nat × ℚ) × ℚ) :=
  [([(0, 150), (1, 250)], 0), ([(0, 150)], 1), ([], 2), ([], 3), ([], 4), ([], 5)]

/-- The scenario run from a freshly reset sensor and an empty heap. -/
def scenRun : (MatrixState × ClusterHeapState) × List (Nat × ClusterItem) :=
  runTicks 1 2 200 50 1 scenTicks (Reset 2 0, initHeap)

/-- The matrix state after the first n ticks of the scenario. -/
def scenState (n : Nat) : MatrixState :=
  (runTicks 1 2 200 50 1 (scenTicks.take n) (Reset 2 0, initHeap)).1.1

/-- The single merged cluster the scenario run pops: P(0,0) and Q(0,1),
with the cluster time of tick 0. -/
def scenItem : ClusterItem :=
  { pixels := [{ row := 0, col := 0, charge := 0 }, { row := 0, col := 1, charge := 0 }],
    time := 0, size := 2 }

/-- C4: AddCluster merges an incoming cluster into the open item any of
its pixels already belongs to (time the earliest seen, membership the
union, every touched pixel's reference entry pointing to the surviving
id), and otherwise allocates a fresh item under the monotonically
increasing id; in the temporal-reconciliation scenario, P crossing
threshold only at tick 1 and its 4-neighbor Q over threshold only at
tick 0 are popped, once both decay fully, as one merged cluster
containing P and Q with time tick 0. -/
theorem addCluster_spec (cols : Nat) (hc : 0 < cols) (s : ClusterHeapState)
    (cluster : List Nat) (t : ℚ) (hinv : HeapInv cols s) :
    ((touchedIds s cluster = [] →
      (AddCluster cols s cluster t).hash_cnt = s.hash_cnt + 1 ∧
      (∀ cid it, alookup s.cluster_table cid = some it → cid < s.hash_cnt) ∧
      alookup (AddCluster cols s cluster t).cluster_table s.hash_cnt =
        some (freshItem cols cluster t) ∧
      ∀ pos ∈ cluster,
        alookup (AddCluster cols s cluster t).ref_table pos = some s.hash_cnt) ∧
    (∀ surv rest, touchedIds s cluster = surv :: rest →
      (AddCluster cols s cluster t).hash_cnt = s.hash_cnt ∧
      alookup (AddCluster cols s cluster t).cluster_table surv =
        some (mergedItem cols s cluster t) ∧
      (∀ pos, pos ∈ itemPositions cols (mergedItem cols s cluster t) ↔
        (pos ∈ cluster ∨ ∃ it ∈ touchedItems s cluster, pos ∈ itemPositions cols it)) ∧
      ((mergedItem cols s cluster t).time ≤ t ∧
        (∀ it ∈ touchedItems s cluster, (mergedItem cols s cluster t).time ≤ it.time) ∧
        ((mergedItem cols s cluster t).time = t ∨
          ∃ it ∈ touchedItems s cluster, (mergedItem cols s cluster t).time = it.time)) ∧
      ∀ pos ∈ itemPositions cols (mergedItem cols s cluster t),
        alookup (AddCluster cols s cluster t).ref_table pos = some surv)) ∧
    (scenRun.2 = [(0, scenItem)] ∧ itemPositions 2 scenItem = [0, 1] ∧
      scenItem.time = 0 ∧
      (scenState 1).pixels.map PixelState.status = [.charging, .ready] ∧
      (scenState 2).pixels.map PixelState.status = [.ready, .charging]) := by
  constructor
  · constructor
    · intro htch
      have hss : AddCluster cols s cluster t =
          { hash_cnt := s.hash_cnt + 1,
            cluster_table := (s.hash_cnt, freshItem cols cluster t) :: s.cluster_table,
            ref_table := cluster.map (fun pos => (pos, s.hash_cnt)) ++
              aremove s.ref_table cluster } := by
        unfold AddCluster
        rw [htch]
      refine ⟨by rw [hss], hinv.2.2.2, ?_, ?_⟩
      · rw [hss]
        show (if s.hash_cnt = s.hash_cnt then some (freshItem cols cluster t) else
          alookup s.cluster_table s.hash_cnt) = some (freshItem cols cluster t)
        rw [if_pos rfl]
      · intro pos hpos
        rw [hss]
        exact alookup_append_some _ _ _ _ (alookup_map_const cluster s.hash_cnt pos hpos)
    · intro surv rest htch
      have hss : AddCluster cols s cluster t =
          { hash_cnt := s.hash_cnt,
            cluster_table := (surv, mergedItem cols s cluster t) ::
              aremove s.cluster_table (surv :: rest),
            ref_table := (itemPositions cols (mergedItem cols s cluster t)).dedup.map
                (fun pos => (pos, surv)) ++
              aremove s.ref_table (itemPositions cols (mergedItem cols s cluster t)) } := by
        unfold AddCluster
        rw [htch]
      refine ⟨by rw [hss], ?_, ?_, ⟨?_, ?_, ?_⟩, ?_⟩
      · rw [hss]
        show (if surv = surv then some (mergedItem cols s cluster t) else
          alookup (aremove s.cluster_table (surv :: rest)) surv) =
            some (mergedItem cols s cluster t)
        rw [if_pos rfl]
      · intro pos
        exact mergedItem_positions_mem cols hc s cluster t pos
      · exact (foldr_min_le ((touchedItems s cluster).map ClusterItem.time) t).1
      · intro it hit
        exact (foldr_min_le ((touchedItems s cluster).map ClusterItem.time) t).2
          it.time (List.mem_map.mpr ⟨it, hit, rfl⟩)
      · rcases foldr_min_attained ((touchedItems s cluster).map ClusterItem.time) t with h | h
        · exact Or.inl h
        · rcases List.mem_map.mp h with ⟨it, hit, heq⟩
          exact Or.inr ⟨it, hit, heq.symm⟩
      · intro pos hpos
        rw [hss]
        exact alookup_append_some _ _ _ _
          (alookup_map_const _ surv pos (List.mem_dedup.mpr hpos))
  · refine ⟨by with_unfolding_all decide, by with_unfolding_all decide,
      by with_unfolding_all decide, by with_unfolding_all decide,
      by with_unfolding_all decide⟩

/-- C5: in every reachable ClusterHeap state, each pixel position in the
ReferenceTable maps to at most one open ClusterItem (reference keys are
unduplicated and every entry points to an open item owning the pixel);
PopClusters returns exactly the items whose members have all left the
active state, removes them from the heap so each is popped exactly once,
and silently drops none. -/
theorem clusterHeap_pop_spec (cols : Nat) (hc : 0 < cols) :
    (∀ s, HeapReachable cols s →
      ((s.ref_table.map Prod.fst).Nodup ∧
        ∀ pos cid, alookup s.ref_table pos = some cid →
          ∃ it, alookup s.cluster_table cid = some it ∧ pos ∈ itemPositions cols it)) ∧
    (∀ (s : ClusterHeapState) (inact : Nat → Bool),
      (∀ kv, kv ∈ (PopClusters cols s inact).1 ↔
        (kv ∈ s.cluster_table ∧ readyItem inact cols kv.2 = true)) ∧
      (∀ kv, kv ∈ (PopClusters cols s inact).2.cluster_table ↔
        (kv ∈ s.cluster_table ∧ readyItem inact cols kv.2 = false)) ∧
      (∀ kv, kv ∈ (PopClusters cols s inact).1 →
        kv ∉ (PopClusters cols s inact).2.cluster_table)) := by
  constructor
  · intro s hs
    have hinv := heapReachable_inv cols hc s hs
    exact ⟨hinv.1, hinv.2.2.1⟩
  · intro s inact
    have h1 : ∀ kv, kv ∈ (PopClusters cols s inact).1 ↔
        (kv ∈ s.cluster_table ∧ readyItem inact cols kv.2 = true) := by
      intro kv
      show kv ∈ s.cluster_table.filter (fun kv => readyItem inact cols kv.2) ↔ _
      rw [List.mem_filter]
    have h2 : ∀ kv, kv ∈ (PopClusters cols s inact).2.cluster_table ↔
        (kv ∈ s.cluster_table ∧ readyItem inact cols kv.2 = false) := by
      intro kv
      show kv ∈ s.cluster_table.filter (fun kv => !readyItem inact cols kv.2) ↔ _
      rw [List.mem_filter]
      simp only [Bool.not_eq_true']
    refine ⟨h1, h2, ?_⟩
    intro kv hkv hkv2
    have hr1 := ((h1 kv).mp hkv).2
    have hr2 := ((h2 kv).mp hkv2).2
    rw [hr1] at hr2
    exact absurd hr2 (by simp)

/-- C5 witness: the theorem instantiated on a 2-column heap. -/
theorem clusterHeap_pop_spec_witness :
    0 < 2 ∧
      ((∀ s, HeapReachable 2 s →
        ((s.ref_table.map Prod.fst).Nodup ∧
          ∀ pos cid, alookup s.ref_table pos = some cid →
            ∃ it, alookup s.cluster_table cid = some it ∧ pos ∈ itemPositions 2 it)) ∧
      (∀ (s : ClusterHeapState) (inact : Nat → Bool),
        (∀ kv, kv ∈ (PopClusters 2 s inact).1 ↔
          (kv ∈ s.cluster_table ∧ readyItem inact 2 kv.2 = true)) ∧
        (∀ kv, kv ∈ (PopClusters 2 s inact).2.cluster_table ↔
          (kv ∈ s.cluster_table ∧ readyItem inact 2 kv.2 = false)) ∧
        (∀ kv, kv ∈ (PopClusters 2 s inact).1 →
          kv ∉ (PopClusters 2 s inact).2.cluster_table))) :=
  ⟨by decide, clusterHeap_pop_spec 2 (by decide)⟩

/-- C6 witness: the constructor theorem instantiated on a 4x6 pixel
ladder with 2x3 segments (an even tiling). -/
theorem mkPixelDigiMatrix_spec_witness :
    ((mkPixelDigiMatrix 4 6 2 3).status = .ok ↔ 2 ∣ 4 ∧ 3 ∣ 6) ∧
      ((mkPixelDigiMatrix 4 6 2 3).status = .ok →
        4 = 2 * (mkPixelDigiMatrix 4 6 2 3).s_rows ∧
          6 = 3 * (mkPixelDigiMatrix 4 6 2 3).s_colums) ∧
      (¬(2 ∣ 4 ∧ 3 ∣ 6) →
        (mkPixelDigiMatrix 4 6 2 3).status = .segment_number_error) :=
  mkPixelDigiMatrix_spec 4 6 2 3

/-- C4 witness: the AddCluster theorem instantiated on the empty heap
with the one-pixel cluster [5] at time 3 (with two grid columns). -/
theorem addCluster_spec_witness :
    0 < 2 ∧
      ((touchedIds initHeap [5] = [] →
        (AddCluster 2 initHeap [5] 3).hash_cnt = initHeap.hash_cnt + 1 ∧
        (∀ cid it, alookup initHeap.cluster_table cid = some it →
          cid < initHeap.hash_cnt) ∧
        alookup (AddCluster 2 initHeap [5] 3).cluster_table initHeap.hash_cnt =
          some (freshItem 2 [5] 3) ∧
        ∀ pos ∈ [5],
          alookup (AddCluster 2 initHeap [5] 3).ref_table pos =
            some initHeap.hash_cnt) ∧
      (∀ surv rest, touchedIds initHeap [5] = surv :: rest →
        (AddCluster 2 initHeap [5] 3).hash_cnt = initHeap.hash_cnt ∧
        alookup (AddCluster 2 initHeap [5] 3).cluster_table surv =
          some (mergedItem 2 initHeap [5] 3) ∧
        (∀ pos, pos ∈ itemPositions 2 (mergedItem 2 initHeap [5] 3) ↔
          (pos ∈ [5] ∨ ∃ it ∈ touchedItems initHeap [5],
            pos ∈ itemPositions 2 it)) ∧
        ((mergedItem 2 initHeap [5] 3).time ≤ 3 ∧
          (∀ it ∈ touchedItems initHeap [5],
            (mergedItem 2 initHeap [5] 3).time ≤ it.time) ∧
          ((mergedItem 2 initHeap [5] 3).time = 3 ∨
            ∃ it ∈ touchedItems initHeap [5],
              (mergedItem 2 initHeap [5] 3).time = it.time)) ∧
        ∀ pos ∈ itemPositions 2 (mergedItem 2 initHeap [5] 3),
          alookup (AddCluster 2 initHeap [5] 3).ref_table pos = some surv)) ∧
      (scenRun.2 = [(0, scenItem)] ∧ itemPositions 2 scenItem = [0, 1] ∧
        scenItem.time = 0 ∧
        (scenState 1).pixels.map PixelState.status = [.charging, .ready] ∧
        (scenState 2).pixels.map PixelState.status = [.ready, .charging]) :=
  ⟨by decide, addCluster_spec 2 (by decide) initHeap [5] 3
    (heapReachable_inv 2 (by decide) initHeap HeapReachable.init)⟩

/-- The sensor state after n quiet ticks (no UpdatePixel calls) from a
freshly reset matrix and an empty heap. -/
def idleState (rows cols : Nat) (thr slope step t0 : ℚ) : Nat →
    MatrixState × ClusterHeapState
  | 0 => (Reset (rows * cols) t0, initHeap)
  | n + 1 => (sensorTick rows cols thr slope step [] (t0 + (n : ℚ) * step)
      (idleState rows cols thr slope step t0 n)).1

/-- Helper: a zero pixel is a fixed point of the clock-sync update. -/
theorem clockSyncPixel_zero (thr slope step : ℚ) :
    clockSyncPixel thr slope step zeroPixel = zeroPixel := by
  unfold clockSyncPixel decayPending zeroPixel
  rw [if_neg]
  simp

/-- Helper: a matrix of zero pixels is inactive. -/
theorem isActive_replicate_zero (n : Nat) (c : ℚ) :
    IsActive { pixels := List.replicate n zeroPixel, clock_time := c } = false := by
  unfold IsActive
  rw [List.any_eq_false]
  intro p hp
  rw [List.eq_of_mem_replicate hp]
  simp [zeroPixel]

/-- Helper: one quiet tick of a quiescent sensor leaves the pixels
cleared, the heap empty, and emits no clusters. -/
theorem sensorTick_quiescent (rows cols : Nat) (thr slope step t : ℚ)
    (st : MatrixState × ClusterHeapState)
    (hpix : st.1.pixels = List.replicate (rows * cols) zeroPixel)
    (hheap : st.2 = initHeap) :
    (sensorTick rows cols thr slope step [] t st).1.1.pixels =
        List.replicate (rows * cols) zeroPixel ∧
      (sensorTick rows cols thr slope step [] t st).1.2 = initHeap ∧
      (sensorTick rows cols thr slope step [] t st).2 = [] := by
  have hm2 : ClockSync thr slope step (List.foldl
      (fun mm (pc : Nat × ℚ) => UpdatePixelM mm pc.1 pc.2) st.1 []) =
      { pixels := List.replicate (rows * cols) zeroPixel,
        clock_time := st.1.clock_time + step } := by
    show ClockSync thr slope step st.1 = _
    unfold ClockSync
    rw [hpix, List.map_replicate, clockSyncPixel_zero]
  have hpop : ∀ inact, PopClusters cols initHeap inact = ([], initHeap) :=
    fun inact => rfl
  unfold sensorTick
  rw [hm2]
  simp only [isActive_replicate_zero, hheap, Bool.false_eq_true, if_false, hpop]
  exact ⟨trivial, trivial, trivial⟩

/-- Helper: the idle run keeps the pixels cleared and the heap empty. -/
theorem idleState_quiescent (rows cols : Nat) (thr slope step t0 : ℚ) :
    ∀ n, (idleState rows cols thr slope step t0 n).1.pixels =
        List.replicate (rows * cols) zeroPixel ∧
      (idleState rows cols thr slope step t0 n).2 = initHeap := by
  intro n
  induction n with
  | zero => exact ⟨rfl, rfl⟩
  | succ n ih =>
    have h := sensorTick_quiescent rows cols thr slope step (t0 + (n : ℚ) * step)
      (idleState rows cols thr slope step t0 n) ih.1 ih.2
    exact ⟨h.1, h.2.1⟩

/-- C9: from a freshly Reset sensor, any number of clock ticks with no
intervening UpdatePixel calls leaves IsActive false and makes every
buildHits pass emit an empty hit list. -/
theorem reset_idle_spec (rows cols : Nat) (thr slope step t0 : ℚ) :
    ∀ n, IsActive (idleState rows cols thr slope step t0 n).1 = false ∧
      ∀ t, (sensorTick rows cols thr slope step [] t
        (idleState rows cols thr slope step t0 n)).2 = [] := by
  intro n
  have h := idleState_quiescent rows cols thr slope step t0 n
  constructor
  · have hpe : (idleState rows cols thr slope step t0 n).1 =
        { pixels := List.replicate (rows * cols) zeroPixel,
          clock_time := (idleState rows cols thr slope step t0 n).1.clock_time } := by
      cases hm : (idleState rows cols thr slope step t0 n).1 with
      | mk pixels clock_time =>
        have := h.1
        rw [hm] at this
        simp only at this
        rw [this]
    rw [hpe]
    exact isActive_replicate_zero (rows * cols) _
  · intro t
    exact (sensorTick_quiescent rows cols thr slope step t
      (idleState rows cols thr slope step t0 n) h.1 h.2).2.2

/-- C9 witness: the idle-run theorem on a 1x2 sensor after 3 quiet
ticks. -/
theorem reset_idle_spec_witness :
    IsActive (idleState 1 2 200 50 1 0 3).1 = false ∧
      ∀ t, (sensorTick 1 2 200 50 1 [] t (idleState 1 2 200 50 1 0 3)).2 = [] :=
  reset_idle_spec 1 2 200 50 1 0 3
